import Mathlib

set_option maxRecDepth 4000

/-!
Shallow embedding of the provider response-normalization and streaming
adapter (the `OllamaClient` and `OpenAIClient` adapters) of this
repository.  Strings are modelled as Lean `String`/`List Char`;
`JSON.parse`/`JSON.stringify` are modelled by an executable JSON value
type with a strict parser and serializers; `randomUUID` is modelled as a
deterministic fresh-id stream threaded as a `Nat` counter.  JavaScript
truthiness on optional strings and on JSON values is made explicit.
-/

/-- The `{` character, kept out of string literals. -/
def braceO : Char := Char.ofNat 123

/-- The `}` character, kept out of string literals. -/
def braceC : Char := Char.ofNat 125

/-- JavaScript `\s` / `String.prototype.trim` whitespace (the code points
relevant to this development). -/
def jsWS (c : Char) : Bool :=
  c = ' ' || c = '\t' || c = '\n' || c = '\r' ||
  c = Char.ofNat 11 || c = Char.ofNat 12 || c = Char.ofNat 0xa0 ||
  c = Char.ofNat 0x1680 || (0x2000 ≤ c.toNat && c.toNat ≤ 0x200a) ||
  c = Char.ofNat 0x2028 || c = Char.ofNat 0x2029 || c = Char.ofNat 0x202f ||
  c = Char.ofNat 0x205f || c = Char.ofNat 0x3000 || c = Char.ofNat 0xfeff

/-- `String.prototype.trim` on a character list. -/
def jsTrimL (s : List Char) : List Char :=
  ((s.dropWhile jsWS).reverse.dropWhile jsWS).reverse

/-- `String.prototype.trim`. -/
def jsTrim (s : String) : String :=
  String.mk (jsTrimL s.toList)

/-- JavaScript truthiness of an optional string (`undefined` and the
empty string are falsy). -/
def strTruthy : Option String → Bool
  | none => false
  | some s => !(s == "")

/-- Deterministic model of `randomUUID()`: the `n`-th generated id. -/
def genId (n : Nat) : String := "uuid-" ++ toString n

/-- JSON values as produced by `JSON.parse`.  Arrays and objects carry
their own spine constructors so that all instances derive structurally.
Numbers keep their source lexeme (no claim computes with numbers). -/
inductive Json where
  | null : Json
  | bool (b : Bool) : Json
  | num (lex : String) : Json
  | str (s : String) : Json
  | arrNil : Json
  | arrCons (hd : Json) (tl : Json) : Json
  | objNil : Json
  | objCons (key : String) (val : Json) (rest : Json) : Json
deriving DecidableEq

/-- A numeric lexeme denoting (floating-point) zero: every mantissa digit
is `0`. -/
def zeroLex (lex : String) : Bool :=
  (lex.toList.takeWhile (fun c => !(c = 'e' || c = 'E'))).all
    (fun c => c = '0' || c = '.' || c = '-' || c = '+')

/-- JavaScript truthiness of a JSON value. -/
def Json.truthy : Json → Bool
  | .null => false
  | .bool b => b
  | .num lex => !zeroLex lex
  | .str s => !(s == "")
  | .arrNil => true
  | .arrCons _ _ => true
  | .objNil => true
  | .objCons _ _ _ => true

/-- `typeof v === 'object'` for a (non-undefined) JSON value: objects,
arrays and `null`. -/
def Json.typeofObject : Json → Bool
  | .null => true
  | .arrNil => true
  | .arrCons _ _ => true
  | .objNil => true
  | .objCons _ _ _ => true
  | _ => false

/-- Property access `v[key]` on a JSON value; `none` models
`undefined` (non-objects have no own properties here). -/
def Json.get : Json → String → Option Json
  | .objCons k v rest, key => if k = key then some v else rest.get key
  | _, _ => none

/-- Set a key on an object spine: an existing key keeps its position and
takes the new value (the `JSON.parse` duplicate-key rule), a new key is
appended. -/
def Json.objSet : Json → String → Json → Json
  | .objCons k v rest, key, nv =>
      if k = key then .objCons k nv rest else .objCons k v (rest.objSet key nv)
  | .objNil, key, nv => .objCons key nv .objNil
  | o, _, _ => o

/-- Remove a key from an object spine. -/
def Json.objRemove : Json → String → Json
  | .objCons k v rest, key =>
      if k = key then rest.objRemove key else .objCons k v (rest.objRemove key)
  | o, _ => o

/-- JSON grammar whitespace (` `, tab, LF, CR). -/
def jsonWS (c : Char) : Bool :=
  c = ' ' || c = '\t' || c = '\n' || c = '\r'

def isJsonDigit (c : Char) : Bool := '0' ≤ c && c ≤ '9'

def hexVal (c : Char) : Option Nat :=
  let v := c.toNat
  if 48 ≤ v && v ≤ 57 then some (v - 48)
  else if 97 ≤ v && v ≤ 102 then some (v - 87)
  else if 65 ≤ v && v ≤ 70 then some (v - 55)
  else none

def hex4 (a b c d : Char) : Option Nat :=
  match hexVal a, hexVal b, hexVal c, hexVal d with
  | some x, some y, some z, some w => some (((x * 16 + y) * 16 + z) * 16 + w)
  | _, _, _, _ => none

/-- Body of a JSON string literal (after the opening quote): returns the
decoded characters and the remainder after the closing quote. -/
def parseStrBody : List Char → Option (List Char × List Char)
  | [] => none
  | '"' :: rest => some ([], rest)
  | '\\' :: 'u' :: a :: b :: c :: d :: rest =>
      match hex4 a b c d with
      | none => none
      | some n =>
        if n < 0xd800 || 0xdfff < n then
          match parseStrBody rest with
          | some (cs, r) => some (Char.ofNat n :: cs, r)
          | none => none
        else if n ≤ 0xdbff then
          match rest with
          | '\\' :: 'u' :: a2 :: b2 :: c2 :: d2 :: rest2 =>
            match hex4 a2 b2 c2 d2 with
            | some m =>
              if 0xdc00 ≤ m && m ≤ 0xdfff then
                match parseStrBody rest2 with
                | some (cs, r) =>
                    some (Char.ofNat (0x10000 + (n - 0xd800) * 0x400 + (m - 0xdc00)) :: cs, r)
                | none => none
              else none
            | none => none
          | _ => none
        else none
  | '\\' :: e :: rest =>
      let dec : Option Char :=
        if e = '"' then some '"'
        else if e = '\\' then some '\\'
        else if e = '/' then some '/'
        else if e = 'b' then some (Char.ofNat 8)
        else if e = 'f' then some (Char.ofNat 12)
        else if e = 'n' then some '\n'
        else if e = 'r' then some '\r'
        else if e = 't' then some '\t'
        else none
      match dec with
      | none => none
      | some ch =>
        match parseStrBody rest with
        | some (cs, r) => some (ch :: cs, r)
        | none => none
  | c :: rest =>
      if c.toNat < 0x20 then none
      else
        match parseStrBody rest with
        | some (cs, r) => some (c :: cs, r)
        | none => none

/-- Digits of a JSON number component. -/
def takeDigits (s : List Char) : List Char × List Char :=
  (s.takeWhile isJsonDigit, s.dropWhile isJsonDigit)

/-- JSON number lexeme: `-?(0|[1-9][0-9]*)(\.[0-9]+)?([eE][+-]?[0-9]+)?`.
Returns the lexeme characters and the remainder.  A malformed tail
(`1.`, `1e`) is left unconsumed; no legal JSON continuation starts with
`.` or `e`, so the overall parse still fails there. -/
def parseNumLex (s : List Char) : Option (List Char × List Char) :=
  let (neg, s1) := match s with
    | '-' :: r => (['-'], r)
    | _ => (([] : List Char), s)
  match s1 with
  | [] => none
  | c :: _ =>
    if !isJsonDigit c then none
    else
      let (ds, s2) := takeDigits s1
      if ds.length > 1 && c = '0' then none
      else
        let (frac, s3) :=
          match s2 with
          | '.' :: r =>
            let (fs, r2) := takeDigits r
            if fs = [] then (([] : List Char), s2) else ('.' :: fs, r2)
          | _ => (([] : List Char), s2)
        let (ex, s4) :=
          match s3 with
          | e :: r =>
            if e = 'e' || e = 'E' then
              let (sgn, r1) := match r with
                | '+' :: r2 => (['+'], r2)
                | '-' :: r2 => (['-'], r2)
                | _ => (([] : List Char), r)
              let (es, r3) := takeDigits r1
              if es = [] then (([] : List Char), s3) else (e :: (sgn ++ es), r3)
            else (([] : List Char), s3)
          | _ => (([] : List Char), s3)
        some (neg ++ ds ++ frac ++ ex, s4)

mutual

/-- One JSON value at the head of the input (no leading whitespace). -/
def parseVal (fuel : Nat) (s : List Char) : Option (Json × List Char) :=
  match fuel with
  | 0 => none
  | fuel + 1 =>
    match s with
    | [] => none
    | '"' :: rest =>
        match parseStrBody rest with
        | some (cs, r) => some (.str (String.mk cs), r)
        | none => none
    | 't' :: 'r' :: 'u' :: 'e' :: rest => some (.bool true, rest)
    | 'f' :: 'a' :: 'l' :: 's' :: 'e' :: rest => some (.bool false, rest)
    | 'n' :: 'u' :: 'l' :: 'l' :: rest => some (.null, rest)
    | '[' :: rest =>
        let r1 := rest.dropWhile jsonWS
        match r1 with
        | ']' :: r2 => some (.arrNil, r2)
        | _ =>
          match parseElems fuel r1 with
          | some (a, r2) => some (a, r2)
          | none => none
    | c :: _ =>
      if c = braceO then
        let r1 := (s.drop 1).dropWhile jsonWS
        match r1 with
        | [] => none
        | c1 :: r2 =>
          if c1 = braceC then some (.objNil, r2)
          else
            match parseMembers fuel r1 with
            | some (o, r3) => some (o, r3)
            | none => none
      else if c = '-' || isJsonDigit c then
        match parseNumLex s with
        | some (lex, r) => some (.num (String.mk lex), r)
        | none => none
      else none

/-- Array elements from the first element on; consumes the closing `]`. -/
def parseElems (fuel : Nat) (s : List Char) : Option (Json × List Char) :=
  match fuel with
  | 0 => none
  | fuel + 1 =>
    match parseVal fuel s with
    | none => none
    | some (v, r) =>
      let r1 := r.dropWhile jsonWS
      match r1 with
      | ']' :: r2 => some (.arrCons v .arrNil, r2)
      | ',' :: r2 =>
        match parseElems fuel (r2.dropWhile jsonWS) with
        | some (tl, r3) => some (.arrCons v tl, r3)
        | none => none
      | _ => none

/-- Object members from the first key on; consumes the closing brace.
Duplicate keys follow the `JSON.parse` rule via `Json.objSet`. -/
def parseMembers (fuel : Nat) (s : List Char) : Option (Json × List Char) :=
  match fuel with
  | 0 => none
  | fuel + 1 =>
    match s with
    | '"' :: rest =>
      match parseStrBody rest with
      | none => none
      | some (kcs, r) =>
        let r1 := r.dropWhile jsonWS
        match r1 with
        | ':' :: r2 =>
          match parseVal fuel (r2.dropWhile jsonWS) with
          | none => none
          | some (v, r3) =>
            let r4 := r3.dropWhile jsonWS
            match r4 with
            | ',' :: r5 =>
              match parseMembers fuel (r5.dropWhile jsonWS) with
              | some (o, r6) =>
                let key := String.mk kcs
                match o.get key with
                | some v2 => some (.objCons key v2 (o.objRemove key), r6)
                | none => some (.objCons key v o, r6)
              | none => none
            | c :: r5 =>
              if c = braceC then some (.objCons (String.mk kcs) v .objNil, r5)
              else none
            | _ => none
        | _ => none
    | _ => none

end

/-- `JSON.parse` on a character list: a single value with surrounding
whitespace, the whole input consumed. -/
def jsonParseL (s : List Char) : Option Json :=
  let b := s.dropWhile jsonWS
  match parseVal (b.length + 1) b with
  | some (v, r) => if r.dropWhile jsonWS = [] then some v else none
  | none => none

/-- `JSON.parse` on a string. -/
def jsonParse (s : String) : Option Json := jsonParseL s.toList

def hexDigit (n : Nat) : Char :=
  if n < 10 then Char.ofNat ('0'.toNat + n) else Char.ofNat ('a'.toNat + n - 10)

/-- `JSON.stringify` escaping of one string character. -/
def escChar (c : Char) : List Char :=
  if c = '"' then ['\\', '"']
  else if c = '\\' then ['\\', '\\']
  else if c = Char.ofNat 8 then ['\\', 'b']
  else if c = '\t' then ['\\', 't']
  else if c = '\n' then ['\\', 'n']
  else if c = Char.ofNat 12 then ['\\', 'f']
  else if c = '\r' then ['\\', 'r']
  else if c.toNat < 0x20 then
    ['\\', 'u', '0', '0', hexDigit (c.toNat / 16), hexDigit (c.toNat % 16)]
  else [c]

/-- A JSON string literal with quotes and escapes. -/
def escStr (s : String) : List Char :=
  ('"' :: s.toList.flatMap escChar) ++ ['"']

mutual

def kwNull : List Char := "null".toList

def kwTrue : List Char := "true".toList

def kwFalse : List Char := "false".toList

/-- `JSON.stringify(v)` (compact form), as characters.  Number values
keep their parsed lexeme. -/
def Json.stringifyC : Json → List Char
  | .null => kwNull
  | .bool b => if b then kwTrue else kwFalse
  | .num lex => lex.toList
  | .str s => escStr s
  | .arrNil => ['[', ']']
  | .arrCons h t => ('[' :: Json.stringifyC h) ++ Json.stringifyCArr t ++ [']']
  | .objNil => [braceO, braceC]
  | .objCons k v r =>
      (braceO :: escStr k) ++ (':' :: Json.stringifyC v) ++ Json.stringifyCObj r ++ [braceC]

def Json.stringifyCArr : Json → List Char
  | .arrCons h t => (',' :: Json.stringifyC h) ++ Json.stringifyCArr t
  | _ => []

def Json.stringifyCObj : Json → List Char
  | .objCons k v r => (',' :: escStr k) ++ (':' :: Json.stringifyC v) ++ Json.stringifyCObj r
  | _ => []

end

def indent2 (d : Nat) : List Char := List.replicate (2 * d) ' '

mutual

/-- `JSON.stringify(v, null, 2)` at nesting depth `d`, as characters. -/
def Json.stringifyI (d : Nat) : Json → List Char
  | .null => kwNull
  | .bool b => if b then kwTrue else kwFalse
  | .num lex => lex.toList
  | .str s => escStr s
  | .arrNil => ['[', ']']
  | .arrCons h t =>
      ('[' :: '\n' :: indent2 (d + 1)) ++ Json.stringifyI (d + 1) h ++
      Json.stringifyIArr (d + 1) t ++ ('\n' :: indent2 d) ++ [']']
  | .objNil => [braceO, braceC]
  | .objCons k v r =>
      (braceO :: '\n' :: indent2 (d + 1)) ++ escStr k ++ (':' :: ' ' :: Json.stringifyI (d + 1) v) ++
      Json.stringifyIObj (d + 1) r ++ ('\n' :: indent2 d) ++ [braceC]

def Json.stringifyIArr (d : Nat) : Json → List Char
  | .arrCons h t =>
      (',' :: '\n' :: indent2 d) ++ Json.stringifyI d h ++ Json.stringifyIArr d t
  | _ => []

def Json.stringifyIObj (d : Nat) : Json → List Char
  | .objCons k v r =>
      (',' :: '\n' :: indent2 d) ++ escStr k ++ (':' :: ' ' :: Json.stringifyI d v) ++
      Json.stringifyIObj d r
  | _ => []

end

/-!  ## Unified message model (`@google/genai` `Content`/`GPart`)  -/

/-- `FunctionCall` (a `tool_call` content block). -/
structure FunctionCall where
  id : Option String := none
  name : Option String := none
  args : Option Json := none
  isClientInitiated : Option Bool := none
deriving DecidableEq

/-- `FunctionResponse` (a `tool_result` content block). -/
structure FunctionResponse where
  id : Option String := none
  name : Option String := none
  response : Option Json := none
deriving DecidableEq

structure InlineData where
  mimeType : Option String := none
  data : Option String := none
deriving DecidableEq

structure FileData where
  fileUri : Option String := none
  displayName : Option String := none
deriving DecidableEq

structure ExecutableCode where
  language : Option String := none
  code : Option String := none
deriving DecidableEq

/-- A `GPart`: the TS interface is a bag of optional fields, checked in a
fixed order by each consumer, so it is modelled as a structure of
options rather than a sum. -/
structure GPart where
  text : Option String := none
  inlineData : Option InlineData := none
  fileData : Option FileData := none
  functionCall : Option FunctionCall := none
  functionResponse : Option FunctionResponse := none
  executableCode : Option ExecutableCode := none
  codeExecutionResult : Option Json := none
deriving DecidableEq

/-- A `Content` (one turn). `parts ?? []` is folded into the model by
making `parts` a plain list. -/
structure Content where
  role : Option String := none
  parts : List GPart := []
deriving DecidableEq

def flatParts (cs : List Content) : List GPart := cs.flatMap (·.parts)

/-- `FinishReason` values used by the adapters. -/
inductive FinishReason where
  | STOP | MAX_TOKENS | SAFETY | OTHER
deriving DecidableEq

structure UsageMetadata where
  promptTokenCount : Option Int := none
  candidatesTokenCount : Option Int := none
  totalTokenCount : Option Int := none
deriving DecidableEq

structure Candidate where
  content : Content
  finishReason : Option FinishReason := none
  index : Option Nat := none
deriving DecidableEq

/-- A unified response increment (`GenerateContentResponse`). -/
structure GenerateContentResponse where
  modelVersion : String
  responseId : Option String := none
  candidates : List Candidate := []
  functionCalls : Option (List FunctionCall) := none
  usageMetadata : Option UsageMetadata := none
deriving DecidableEq

/-!  ## History Reconciler: `OllamaClient.normalizeToolHistory`

The source walks the conversation once collecting tool-call ids and
resolved ids, keeping a clone of each turn, and — when some call id is
unresolved — runs a second filtering pass.  The walk also mutates the
caller's parts (assigning generated ids to id-less `functionCall`
blocks); the embedding returns the post-state of the input alongside
the result so that this effect is visible.  -/

structure NState where
  callIds : Finset String
  resolved : Finset String
  ctr : Nat

/-- First-pass handling of one part: next state, the part as left in the
caller's array (mutation visible), and the part pushed to `clonedParts`
(`none` when dropped). -/
def pass1Part (st : NState) (p : GPart) : NState × GPart × Option GPart :=
  match p.functionCall with
  | some fc =>
    match fc.id with
    | some s => ({ st with callIds := insert s st.callIds }, p, some p)
    | none =>
      let cid := genId st.ctr
      let p2 := { p with functionCall := some { fc with id := some cid } }
      ({ st with callIds := insert cid st.callIds, ctr := st.ctr + 1 }, p2, some p2)
  | none =>
  match p.functionResponse with
  | some fr =>
    match fr.id with
    | none => (st, p, some p)
    | some x =>
      if x = "" then (st, p, some p)
      else if x ∈ st.callIds then ({ st with resolved := insert x st.resolved }, p, some p)
      else (st, p, none)
  | none => (st, p, some p)

def pass1Parts (st : NState) : List GPart → NState × List GPart × List GPart
  | [] => (st, [], [])
  | p :: ps =>
    let r := pass1Part st p
    let rest := pass1Parts r.1 ps
    (rest.1, r.2.1 :: rest.2.1, (match r.2.2 with | some q => q :: rest.2.2 | none => rest.2.2))

def pass1Contents (st : NState) : List Content → NState × List Content × List Content
  | [] => (st, [], [])
  | c :: cs =>
    let r := pass1Parts st c.parts
    let rest := pass1Contents r.1 cs
    (rest.1,
     { c with parts := r.2.1 } :: rest.2.1,
     if r.2.2.isEmpty then rest.2.2 else { c with parts := r.2.2 } :: rest.2.2)

/-- The second-pass filter test (`id && unresolvedIds.has(id)`). -/
def pass2Drop (u : Finset String) (p : GPart) : Bool :=
  match p.functionCall with
  | some fc =>
    match fc.id with
    | some x => !(x == "") && decide (x ∈ u)
    | none => false
  | none => false

def pass2 (u : Finset String) (cs : List Content) : List Content :=
  cs.filterMap (fun c =>
    let f := c.parts.filter (fun p => !pass2Drop u p)
    if f.isEmpty then none else some { c with parts := f })

/-- `normalizeToolHistory`, also returning the caller's conversation as
it stands after the call (second component). -/
def normalizeRun (cs : List Content) : List Content × List Content :=
  let r := pass1Contents ⟨∅, ∅, 0⟩ cs
  if r.1.callIds.card = r.1.resolved.card then (r.2.2, r.2.1)
  else (pass2 (r.1.callIds \ r.1.resolved) r.2.2, r.2.1)

def normalizeToolHistory (cs : List Content) : List Content :=
  (normalizeRun cs).1

/-- The caller's conversation after `normalizeToolHistory` has run. -/
def normalizeInputAfter (cs : List Content) : List Content :=
  (normalizeRun cs).2

/-!  ## Ollama textual tool-call protocol  -/

/-- First value of `a ?? b ?? … ?? data[k]` over property keys: skips
absent and `null` values, with `\x7b\x7d` as the final default. -/
def nullishChain (data : Json) : List String → Json
  | [] => Json.objNil
  | k :: ks =>
    match data.get k with
    | some v => if v = Json.null then nullishChain data ks else v
    | none => nullishChain data ks

/-- `typeof data[k] === 'string' && data[k]`: the property value when it
is a non-empty string. -/
def nameAlias (data : Json) (k : String) : Option String :=
  match data.get k with
  | some (.str v) => if v = "" then none else some v
  | _ => none

/-- `parseToolCallPayload`: parse the JSON payload of a matched fence
into a `FunctionCall` (threading the `randomUUID` counter). -/
def parseToolCallPayload (payload : Option String) (n : Nat) : Option FunctionCall × Nat :=
  match payload with
  | none => (none, n)
  | some s =>
    if s = "" then (none, n)
    else
      match jsonParse (jsTrim s) with
      | none => (none, n)
      | some data =>
        match ((nameAlias data "name").orElse fun _ =>
                (nameAlias data "tool").orElse fun _ =>
                  nameAlias data "command") with
        | none => (none, n)
        | some nm =>
          let rawArgs := nullishChain data ["arguments", "args", "parameters", "params"]
          let args :=
            if rawArgs.truthy && rawArgs.typeofObject then rawArgs
            else Json.objCons "value" rawArgs Json.objNil
          (some { id := some (genId n), name := some nm, args := some args,
                  isClientInitiated := some false }, n + 1)

/-- Case-insensitive literal match at the head of the input. -/
def ciStarts : List Char → List Char → Bool
  | [], _ => true
  | _, [] => false
  | p :: ps, c :: cs => p.toLower = c.toLower && ciStarts ps cs

def fencedTag : List Char := "```tool_call".toList

def ticks3 : List Char := "```".toList

/-- Split at the first occurrence of a closing ```` ``` ````. -/
def splitAtTicks : List Char → Option (List Char × List Char)
  | [] => none
  | c :: r =>
    if ciStarts ticks3 (c :: r) then some ([], (c :: r).drop 3)
    else
      match splitAtTicks r with
      | some (a, b) => some (c :: a, b)
      | none => none

def xmlOpenTag : List Char := "<tool_call".toList

def xmlCloseTag : List Char := "</tool_call>".toList

/-- The bare open tag `<tool_call>` (no attributes). -/
def xmlOpenFull : List Char := "<tool_call>".toList

/-- Split at the first (case-insensitive) `</tool_call>`, returning the
text before it, the tag's original characters, and the remainder. -/
def splitAtCloseTag : List Char → Option (List Char × List Char × List Char)
  | [] => none
  | c :: r =>
    if ciStarts xmlCloseTag (c :: r) then some ([], (c :: r).take 12, (c :: r).drop 12)
    else
      match splitAtCloseTag r with
      | some (a, t, b) => some (c :: a, t, b)
      | none => none

/-- One global-replace pass of ``/```tool_call\s*([\s\S]*?)```/gi``:
a parsed payload is replaced by the empty string, a failed parse keeps
the matched text; scanning resumes after each match. -/
def scanFenced (fuel : Nat) (n : Nat) (s : List Char) : List Char × List FunctionCall × Nat :=
  match fuel with
  | 0 => (s, [], n)
  | fuel + 1 =>
    match s with
    | [] => ([], [], n)
    | c :: rest =>
      if ciStarts fencedTag s then
        let body := s.drop 12
        let ws := body.takeWhile jsWS
        let afterWS := body.dropWhile jsWS
        match splitAtTicks afterWS with
        | some (payload, after) =>
          match parseToolCallPayload (some (String.mk payload)) n with
          | (some call, n1) =>
            let r := scanFenced fuel n1 after
            (r.1, call :: r.2.1, r.2.2)
          | (none, n1) =>
            let r := scanFenced fuel n1 after
            (s.take 12 ++ ws ++ payload ++ ticks3 ++ r.1, r.2.1, r.2.2)
        | none => (s, [], n)
      else
        let r := scanFenced fuel n rest
        (c :: r.1, r.2.1, r.2.2)

/-- One global-replace pass of
``/<tool_call[^>]*>([\s\S]*?)<\/tool_call>/gi``. -/
def scanXml (fuel : Nat) (n : Nat) (s : List Char) : List Char × List FunctionCall × Nat :=
  match fuel with
  | 0 => (s, [], n)
  | fuel + 1 =>
    match s with
    | [] => ([], [], n)
    | c :: rest =>
      if ciStarts xmlOpenTag s then
        let body := s.drop 10
        let attrs := body.takeWhile (fun ch => !(ch = '>'))
        match body.dropWhile (fun ch => !(ch = '>')) with
        | '>' :: body2 =>
          match splitAtCloseTag body2 with
          | some (payload, tagOrig, after) =>
            match parseToolCallPayload (some (String.mk payload)) n with
            | (some call, n1) =>
              let r := scanXml fuel n1 after
              (r.1, call :: r.2.1, r.2.2)
            | (none, n1) =>
              let r := scanXml fuel n1 after
              (s.take 10 ++ attrs ++ ('>' :: payload) ++ tagOrig ++ r.1, r.2.1, r.2.2)
          | none => (s, [], n)
        | _ => (s, [], n)
      else
        let r := scanXml fuel n rest
        (c :: r.1, r.2.1, r.2.2)

/-- `extractToolCalls`: strip parsed `tool_call` fences (and the XML
variant) from completed text, collecting the calls. -/
def extractToolCalls (content : String) (n : Nat) : String × List FunctionCall × Nat :=
  let cl := content.toList
  let r1 := scanFenced cl.length n cl
  let r2 := scanXml r1.1.length r1.2.2 r1.1
  (String.mk (jsTrimL r2.1), r1.2.1 ++ r2.2.1, r2.2.2)

/-!  ## OllamaClient request building and response mapping  -/

/-- `ContentListUnion` members (`string | Content | Part`). -/
inductive ContentU where
  | str (s : String) : ContentU
  | content (c : Content) : ContentU
  | part (p : GPart) : ContentU
deriving DecidableEq

/-- `ContentListUnion`: a single item or an array. -/
inductive ContentListUnion where
  | one (u : ContentU) : ContentListUnion
  | many (us : List ContentU) : ContentListUnion
deriving DecidableEq

/-- `toContent` (the in-repo converter in `ollamaClient.ts`). -/
def toContent : ContentU → Content
  | .str s => { role := some "user", parts := [{ text := some s }] }
  | .content c => c
  | .part p => { role := some "user", parts := [p] }

/-- `toContents`. -/
def toContents : ContentListUnion → List Content
  | .one u => [toContent u]
  | .many us => us.map toContent

/-- The `FunctionCall` object as a JSON value (canonical construction
order `id, name, args, isClientInitiated`; absent fields omitted, the
`JSON.stringify` rule for `undefined` properties). -/
def functionCallToJson (fc : FunctionCall) : Json :=
  let o0 : Json := .objNil
  let o1 := match fc.isClientInitiated with
    | some b => Json.objCons "isClientInitiated" (.bool b) o0
    | none => o0
  let o2 := match fc.args with
    | some a => Json.objCons "args" a o1
    | none => o1
  let o3 := match fc.name with
    | some nm => Json.objCons "name" (.str nm) o2
    | none => o2
  match fc.id with
  | some i => Json.objCons "id" (.str i) o3
  | none => o3

/-- `partToText` (the `unnamed/part_001` version). -/
def partToText (p : GPart) : String :=
  match p.text with
  | some s => s
  | none =>
    match p.functionCall with
    | some fc => String.mk (functionCallToJson fc).stringifyC
    | none => ""

structure OllamaMsg where
  role : String
  content : String
deriving DecidableEq

/-- `OllamaClient.mapRole`. -/
def Ollama.mapRole (role : Option String) : String :=
  match role with
  | none => "user"
  | some r =>
    let normalized := r.toLower
    if normalized = "model" || normalized = "assistant" then "assistant"
    else if normalized = "system" then "system"
    else "user"

/-- `OllamaClient.formatToolResult`. -/
def Ollama.formatToolResult (response : FunctionResponse) (n : Nat) : String × Nat :=
  let (cid, n') := match response.id with
    | some i => (i, n)
    | none => (genId n, n + 1)
  let payload : Json :=
    .objCons "call_id" (.str cid)
      (.objCons "name" (.str (response.name.getD "tool"))
        (.objCons "output" (response.response.getD .objNil) .objNil))
  ("```tool_result\n" ++ String.mk payload.stringifyC ++ "\n```", n')

/-- `flushBuffer` inside `contentsToMessages`: the buffer is reset only
when a non-blank message was actually pushed. -/
def Ollama.flushBuffer (role : String) (buffer : String) (msgs : List OllamaMsg) :
    String × List OllamaMsg :=
  let t := jsTrim buffer
  if t = "" then (buffer, msgs) else ("", msgs ++ [⟨role, t⟩])

def Ollama.msgsOfParts (role : String) (n : Nat) (buffer : String)
    (msgs : List OllamaMsg) : List GPart → List OllamaMsg × String × Nat
  | [] =>
    let r := Ollama.flushBuffer role buffer msgs
    (r.2, r.1, n)
  | p :: ps =>
    match p.functionResponse with
    | some fr =>
      let r := Ollama.flushBuffer role buffer msgs
      let s := Ollama.formatToolResult fr n
      Ollama.msgsOfParts role s.2 r.1 (r.2 ++ [⟨"user", s.1⟩]) ps
    | none =>
      let frag := partToText p
      if frag = "" then Ollama.msgsOfParts role n buffer msgs ps
      else
        Ollama.msgsOfParts role n
          (if buffer = "" then frag else buffer ++ "\n" ++ frag) msgs ps

def Ollama.msgsLoop (n : Nat) (msgs : List OllamaMsg) : List Content → List OllamaMsg × Nat
  | [] => (msgs, n)
  | c :: cs =>
    let role := Ollama.mapRole c.role
    let r := Ollama.msgsOfParts role n "" msgs c.parts
    Ollama.msgsLoop r.2.2 r.1 cs

/-- `OllamaClient.contentsToMessages`. -/
def Ollama.contentsToMessages (contents : ContentListUnion) (n : Nat) :
    List OllamaMsg × Nat :=
  Ollama.msgsLoop n [] (normalizeToolHistory (toContents contents))

structure FunctionDeclaration where
  name : Option String := none
  description : Option String := none
  parameters : Option Json := none
  parametersJsonSchema : Option Json := none
deriving DecidableEq

structure Tool where
  functionDeclarations : Option (List FunctionDeclaration) := none
deriving DecidableEq

inductive ToolListUnion where
  | one (t : Tool) : ToolListUnion
  | many (ts : List Tool) : ToolListUnion
deriving DecidableEq

/-- `FunctionCallingConfigMode`. -/
inductive FCMode where
  | NONE | ANY | AUTO | VALIDATED
deriving DecidableEq

/-- `GenerateContentConfig` (the fields the adapters read). -/
structure GenConfig where
  systemInstruction : Option ContentListUnion := none
  tools : Option ToolListUnion := none
  temperature : Option Int := none
  topP : Option Int := none
  presencePenalty : Option Int := none
  frequencyPenalty : Option Int := none
  maxOutputTokens : Option Int := none
  stopSequences : Option (List String) := none
  candidateCount : Option Int := none
  toolConfigMode : Option FCMode := none
  allowedFunctionNames : Option (List String) := none
  responseMimeType : Option String := none
  responseJsonSchema : Option Json := none
deriving DecidableEq

/-- `GenerateContentParameters` (the fields the adapters read). -/
structure GenParams where
  model : Option String := none
  contents : ContentListUnion
  config : Option GenConfig := none
deriving DecidableEq

/-- `OllamaClient.systemInstructionToText`. -/
def Ollama.systemInstructionToText (instruction : Option ContentListUnion) : Option String :=
  match instruction with
  | none => none
  | some i =>
    let text := jsTrim (String.intercalate "\n"
      ((toContents i).map fun c => String.join (c.parts.map partToText)))
    if text = "" then none else some text

/-- The fixed lines of the textual tool protocol prompt (braces written
as `\x7b`/`\x7d`). -/
def Ollama.toolPromptLines (toolDescriptions : String) : List String :=
  ["Available tools:",
   toolDescriptions,
   "",
   "When you want to call a tool, respond with a fenced code block exactly like this (no extra commentary):",
   "```tool_call",
   "\x7b\"name\":\"tool_name\",\"arguments\":\x7b\"param\":\"value\"\x7d\x7d",
   "```",
   "Respond with multiple tool_call blocks if you must call more than one tool. When you are giving a normal reply, do not include any tool_call block.",
   "",
   "Tool results will be provided back to you in this format:",
   "```tool_result",
   "\x7b\"call_id\":\"same id you provided\",\"name\":\"tool_name\",\"output\":\x7b...\x7d\x7d",
   "```",
   "Always wait for the matching tool_result before continuing the conversation."]

/-- `OllamaClient.buildToolPrompt`. -/
def Ollama.buildToolPrompt (tools : Option ToolListUnion) : Option String :=
  match tools with
  | none => none
  | some ts =>
    let toolArray := match ts with
      | .one t => [t]
      | .many l => l
    let declarations := toolArray.flatMap fun t => t.functionDeclarations.getD []
    if declarations.isEmpty then none
    else
      let toolDescriptions := String.intercalate "\n" (declarations.map fun decl =>
        let summary := (decl.description.map jsTrim).getD ""
        "- " ++ decl.name.getD "tool" ++ (if summary = "" then "" else ": " ++ summary))
      some (String.intercalate "\n" (Ollama.toolPromptLines toolDescriptions))

/-- `OllamaClient.buildSystemPrompt`. -/
def Ollama.buildSystemPrompt (instruction : Option ContentListUnion)
    (tools : Option ToolListUnion) : Option String :=
  let parts :=
    (match Ollama.systemInstructionToText instruction with
     | some base => [base]
     | none => []) ++
    (match Ollama.buildToolPrompt tools with
     | some tp => [tp]
     | none => [])
  if parts.isEmpty then none else some (String.intercalate "\n\n" parts)

/-- The request body `\x7bmodel, messages, stream, options\x7d` sent to
`/api/chat`. -/
structure OllamaBody where
  model : String
  messages : List OllamaMsg
  stream : Bool
  temperature : Option Int := none
deriving DecidableEq

/-- The pre-`fetch` section of `OllamaClient.generateContent` /
`generateContentStream`: the Ollama request builder.  It is total —
the source has no emptiness check on `messages`. -/
def Ollama.buildRequestBody (defaultModel : String) (req : GenParams)
    (stream : Bool) (n : Nat) : OllamaBody × Nat :=
  let targetModel := if strTruthy req.model then req.model.getD "" else defaultModel
  let r := Ollama.contentsToMessages req.contents n
  let systemPrompt :=
    Ollama.buildSystemPrompt (req.config.bind (·.systemInstruction))
      (req.config.bind (·.tools))
  let messages := match systemPrompt with
    | some sp => ⟨"system", sp⟩ :: r.1
    | none => r.1
  ({ model := targetModel, messages := messages, stream := stream,
     temperature := req.config.bind (·.temperature) }, r.2)

structure OllamaRespMsg where
  role : Option String := none
  content : Option String := none
deriving DecidableEq

/-- The JSON body of a non-streaming `/api/chat` response (the fields
read by the mapper). -/
structure OllamaRespData where
  message : Option OllamaRespMsg := none
  eval_count : Option Int := none
  prompt_eval_count : Option Int := none
deriving DecidableEq

/-- The response-mapping section of `OllamaClient.generateContent`
(after the `fetch`): wire payload to unified response. -/
def Ollama.generateResult (targetModel : String) (data : OllamaRespData) (n : Nat) :
    GenerateContentResponse × Nat :=
  let text := (data.message.bind (·.content)).getD ""
  let r := extractToolCalls text n
  let strippedText := r.1
  let functionCalls := r.2.1
  let parts : List GPart :=
    (if strippedText = "" then [] else [{ text := some strippedText }]) ++
    functionCalls.map fun call => { functionCall := some call }
  ({ modelVersion := targetModel,
     responseId := none,
     candidates := [{ content := { role := some "model",
                                   parts := if parts.isEmpty then [{ text := some "" }] else parts } }],
     usageMetadata :=
       if data.prompt_eval_count.isSome || data.eval_count.isSome then
         some { promptTokenCount := data.prompt_eval_count,
                candidatesTokenCount := data.eval_count }
       else none,
     functionCalls := if functionCalls.isEmpty then none else some functionCalls }, r.2.2)

/-- `DONE_REASON_TO_FINISH` (the Ollama finish-reason table). -/
def DONE_REASON_TO_FINISH (s : String) : Option FinishReason :=
  if s = "stop" then some .STOP
  else if s = "length" then some .MAX_TOKENS
  else none

/-- `DONE_REASON_TO_FINISH[payload.done_reason ?? 'stop'] ?? FinishReason.STOP`. -/
def Ollama.doneFinish (done_reason : Option String) : FinishReason :=
  (DONE_REASON_TO_FINISH (done_reason.getD "stop")).getD .STOP

/-- One parsed line of the newline-delimited Ollama stream. -/
structure OllamaStreamChunk where
  model : Option String := none
  message : Option OllamaRespMsg := none
  done : Option Bool := none
  done_reason : Option String := none
  eval_count : Option Int := none
  prompt_eval_count : Option Int := none
deriving DecidableEq

structure OllamaStreamState where
  accumulatedModel : String
  finishReason : Option FinishReason := none
  usage : Option UsageMetadata := none
deriving DecidableEq

/-- The per-payload section of the `streamGenerator` loop in
`OllamaClient.generateContentStream` (lines 505–546): may yield one
increment and updates the accumulated model / finish / usage state. -/
def Ollama.processPayload (st : OllamaStreamState) (p : OllamaStreamChunk) (n : Nat) :
    Option GenerateContentResponse × OllamaStreamState × Nat :=
  let st1 := if strTruthy p.model then { st with accumulatedModel := p.model.getD "" } else st
  if p.done.getD false then
    (none,
     { st1 with finishReason := some (Ollama.doneFinish p.done_reason),
                usage := some { promptTokenCount := p.prompt_eval_count,
                                candidatesTokenCount := p.eval_count } }, n)
  else
    let chunkText := (p.message.bind (·.content)).getD ""
    if chunkText = "" then (none, st1, n)
    else
      let r := extractToolCalls chunkText n
      let parts : List GPart :=
        (if r.1 = "" then [] else [{ text := some r.1 }]) ++
        r.2.1.map fun call => { functionCall := some call }
      if parts.isEmpty then (none, st1, r.2.2)
      else
        (some { modelVersion := st1.accumulatedModel,
                responseId := none,
                candidates := [{ content := { role := some "model", parts := parts },
                                 finishReason := if r.2.1.isEmpty then none else some .STOP }],
                functionCalls := if r.2.1.isEmpty then none else some r.2.1 },
         st1, r.2.2)

/-- The trailing response yielded after the Ollama stream loop ends. -/
def Ollama.finalResponse (st : OllamaStreamState) : Option GenerateContentResponse :=
  if st.finishReason.isSome || st.usage.isSome then
    some { modelVersion := st.accumulatedModel,
           responseId := none,
           candidates := [{ content := { role := some "model", parts := [] },
                            finishReason := some (st.finishReason.getD .STOP) }],
           usageMetadata := st.usage }
  else none

/-!  ## OpenAIClient: shared helpers  -/

/-- `safeJsonParse`. -/
def safeJsonParse (value : Option String) : Option Json :=
  match value with
  | none => none
  | some v =>
    if v = "" then none
    else
      let trimmed := jsTrim v
      if trimmed = "" then none else jsonParse trimmed

/-- `mapFinishReason` (the OpenAI finish-reason table). -/
def mapFinishReason (reason : Option String) : Option FinishReason :=
  match reason with
  | none => none
  | some r =>
    if r = "" then none
    else if r = "stop" then some .STOP
    else if r = "length" then some .MAX_TOKENS
    else if r = "content_filter" then some .SAFETY
    else if r = "tool_calls" then none
    else some .OTHER

structure OpenAIUsage where
  prompt_tokens : Option Int := none
  completion_tokens : Option Int := none
  total_tokens : Option Int := none
deriving DecidableEq

/-- `usageToMetadata`. -/
def usageToMetadata (usage : Option OpenAIUsage) : Option UsageMetadata :=
  match usage with
  | none => none
  | some u =>
    some { promptTokenCount := u.prompt_tokens,
           candidatesTokenCount := u.completion_tokens,
           totalTokenCount := u.total_tokens }

/-- `cloneSchema`: the `JSON.parse(JSON.stringify(schema))` round trip is
the identity on JSON values; only the object/truthiness guard remains. -/
def cloneSchema (schema : Option Json) : Option Json :=
  match schema with
  | some v => if v.truthy && v.typeofObject then some v else none
  | none => none

/-- `stringifyUnknown`. -/
def stringifyUnknown (v : Json) : String :=
  match v with
  | .str s => s
  | .null => String.mk (Json.objNil.stringifyI 0)
  | v => String.mk (v.stringifyI 0)

inductive OAIContentItem where
  | text (t : Option String) : OAIContentItem
  | inputText (t : Option String) : OAIContentItem
  | imageUrl (url : Option String) : OAIContentItem
  | other : OAIContentItem
deriving DecidableEq

/-- `string | OpenAIMessageContentPart[]`. -/
inductive OAIContentVal where
  | str (s : String) : OAIContentVal
  | items (l : List OAIContentItem) : OAIContentVal
deriving DecidableEq

def oaiItemToGeminiParts : OAIContentItem → List GPart
  | .text t | .inputText t =>
    match t with
    | some s => if s = "" then [] else [{ text := some s }]
    | none => []
  | .imageUrl url =>
    match url with
    | some u => if u = "" then [] else [{ text := some ("[Image content: " ++ u ++ "]") }]
    | none => []
  | .other => []

/-- `openAIContentToGeminiParts`. -/
def openAIContentToGeminiParts (content : Option OAIContentVal) : List GPart :=
  match content with
  | none => []
  | some (.str s) => if s = "" then [] else [{ text := some s }]
  | some (.items l) => l.flatMap oaiItemToGeminiParts

structure OAIFn where
  name : Option String := none
  arguments : Option String := none
deriving DecidableEq

/-- `OpenAIToolCallMessage`. -/
structure OpenAIToolCallMessage where
  id : Option String := none
  function : Option OAIFn := none
  index : Option Nat := none
deriving DecidableEq

/-!  ## OpenAIClient: tool-call accumulator and stream parsing  -/

structure ToolCallAccumulator where
  id : Option String := none
  name : Option String := none
  rawArguments : String := ""
  parsedArgs : Option Json := none
  emitted : Bool := false
deriving DecidableEq

def jsonOptTruthy : Option Json → Bool
  | some v => v.truthy
  | none => false

/-- `a ?? b` on optional JSON values (skips both absence and `null`). -/
def optNullish (a b : Option Json) : Option Json :=
  match a with
  | some v => if v = .null then b else some v
  | none => b

/-- `ToolCallAccumulator.append`. -/
def ToolCallAccumulator.append (acc : ToolCallAccumulator) (delta : OpenAIToolCallMessage) :
    ToolCallAccumulator :=
  let acc1 := if strTruthy delta.id then { acc with id := delta.id } else acc
  let nm := delta.function.bind (·.name)
  let acc2 := if strTruthy nm then { acc1 with name := nm } else acc1
  match delta.function.bind (·.arguments) with
  | some argStr =>
    let raw := acc2.rawArguments ++ argStr
    let acc3 := { acc2 with rawArguments := raw }
    match safeJsonParse (some raw) with
    | some v => if v.truthy then { acc3 with parsedArgs := some v } else acc3
    | none => acc3
  | none => acc2

/-- `ToolCallAccumulator.tryBuild`. -/
def ToolCallAccumulator.tryBuild (acc : ToolCallAccumulator) :
    Option FunctionCall × ToolCallAccumulator :=
  if acc.emitted then (none, acc)
  else if !strTruthy acc.id || !strTruthy acc.name || !jsonOptTruthy acc.parsedArgs then
    (none, acc)
  else
    (some { id := acc.id, name := acc.name, args := acc.parsedArgs,
            isClientInitiated := some false },
     { acc with emitted := true })

/-- `ToolCallAccumulator.finalize` (threading the `randomUUID` counter). -/
def ToolCallAccumulator.finalize (acc : ToolCallAccumulator) (n : Nat) :
    Option FunctionCall × ToolCallAccumulator × Nat :=
  if acc.emitted then (none, acc, n)
  else
    let r1 := if strTruthy acc.id then (acc.id.getD "", n) else (genId n, n + 1)
    let nmv := if strTruthy acc.name then acc.name.getD "" else "tool_call"
    let args :=
      match optNullish acc.parsedArgs (safeJsonParse (some acc.rawArguments)) with
      | some v =>
        if v = Json.null then
          if acc.rawArguments = "" then Json.objNil
          else Json.objCons "raw" (.str acc.rawArguments) Json.objNil
        else v
      | none =>
        if acc.rawArguments = "" then Json.objNil
        else Json.objCons "raw" (.str acc.rawArguments) Json.objNil
    (some { id := some r1.1, name := some nmv, args := some args,
            isClientInitiated := some false },
     { acc with id := some r1.1, name := some nmv, emitted := true }, r1.2)

abbrev Buffers := List (Nat × ToolCallAccumulator)

def buffersGet (bs : Buffers) (i : Nat) : Option ToolCallAccumulator :=
  (bs.find? fun e => e.1 = i).map (·.2)

/-- JS `Map.set`: update in place, or append a new key at the end. -/
def buffersSet (bs : Buffers) (i : Nat) (a : ToolCallAccumulator) : Buffers :=
  match bs with
  | [] => [(i, a)]
  | e :: rest => if e.1 = i then (i, a) :: rest else e :: buffersSet rest i a

def buffersDelete (bs : Buffers) (i : Nat) : Buffers :=
  bs.filter fun e => !(e.1 = i)

/-- The mutable state of `OpenAIStreamParser`. -/
structure OpenAIStreamParserState where
  toolCallBuffers : Buffers := []
  lastResponseId : Option String := none
  fallbackModel : String
deriving DecidableEq

def captureLoop (bs : Buffers) (completed : List FunctionCall) :
    List OpenAIToolCallMessage → List FunctionCall × Buffers
  | [] => (completed, bs)
  | d :: ds =>
    let i := d.index.getD 0
    let acc0 := (buffersGet bs i).getD {}
    let acc1 := acc0.append d
    let r := acc1.tryBuild
    match r.1 with
    | some fnCall => captureLoop (buffersDelete bs i) (completed ++ [fnCall]) ds
    | none => captureLoop (buffersSet bs i r.2) completed ds

/-- `OpenAIStreamParser.captureToolCalls`. -/
def captureToolCalls (st : OpenAIStreamParserState)
    (deltas : Option (List OpenAIToolCallMessage)) :
    List FunctionCall × OpenAIStreamParserState :=
  match deltas with
  | none => ([], st)
  | some ds =>
    if ds.isEmpty then ([], st)
    else
      let r := captureLoop st.toolCallBuffers [] ds
      (r.1, { st with toolCallBuffers := r.2 })

structure OpenAIChatCompletionChunkChoice where
  index : Nat := 0
  deltaContent : Option OAIContentVal := none
  deltaToolCalls : Option (List OpenAIToolCallMessage) := none
  finish_reason : Option String := none
deriving DecidableEq

structure OpenAIChatCompletionChunk where
  id : String
  model : String
  choices : List OpenAIChatCompletionChunkChoice := []
  usage : Option OpenAIUsage := none
deriving DecidableEq

/-- `OpenAIStreamParser.processChoice`. -/
def processChoice (st : OpenAIStreamParserState)
    (choice : OpenAIChatCompletionChunkChoice) (chunk : OpenAIChatCompletionChunk) :
    Option GenerateContentResponse × OpenAIStreamParserState :=
  let contentParts := openAIContentToGeminiParts choice.deltaContent
  let r := captureToolCalls st choice.deltaToolCalls
  let toolCalls := r.1
  let parts := contentParts ++ toolCalls.map fun call => { functionCall := some call }
  let finishReason := mapFinishReason choice.finish_reason
  let usageMetadata := usageToMetadata chunk.usage
  let st2 := { r.2 with lastResponseId := some chunk.id }
  if parts.isEmpty && finishReason.isNone && usageMetadata.isNone && toolCalls.isEmpty then
    (none, st2)
  else
    (some { modelVersion := if chunk.model = "" then st.fallbackModel else chunk.model,
            responseId := some chunk.id,
            candidates := [{ content := { role := some "model", parts := parts },
                             finishReason := finishReason }],
            functionCalls := if toolCalls.isEmpty then none else some toolCalls,
            usageMetadata := usageMetadata }, st2)

def flushLoop (n : Nat) : Buffers → List FunctionCall × Nat
  | [] => ([], n)
  | (_, acc) :: rest =>
    let r := acc.finalize n
    let rr := flushLoop r.2.2 rest
    ((match r.1 with | some c => c :: rr.1 | none => rr.1), rr.2)

/-- `OpenAIStreamParser.flushToolCalls`. -/
def flushToolCalls (st : OpenAIStreamParserState) (n : Nat) :
    Option GenerateContentResponse × OpenAIStreamParserState × Nat :=
  if st.toolCallBuffers.isEmpty then (none, st, n)
  else
    let r := flushLoop n st.toolCallBuffers
    let st' := { st with toolCallBuffers := [] }
    if r.1.isEmpty then (none, st', r.2)
    else
      (some { modelVersion := st.fallbackModel,
              responseId := st.lastResponseId,
              candidates := [{ content := { role := some "model",
                                            parts := r.1.map fun call => { functionCall := some call } } }],
              functionCalls := some r.1 }, st', r.2)

/-!  ## OpenAIClient: request building  -/

/-- `OpenAIChatMessage` (`role tool` messages have their own shape). -/
inductive OpenAIChatMessage where
  | plain (role : String) (content : OAIContentVal)
      (tool_calls : Option (List OpenAIToolCallMessage)) : OpenAIChatMessage
  | tool (tool_call_id : String) (name : Option String) (content : String) : OpenAIChatMessage
deriving DecidableEq

/-- `OpenAIClient.mapRole` (with the dedicated `tool` role). -/
def OpenAI.mapRole (role : Option String) : String :=
  match role with
  | none => "user"
  | some r =>
    let normalized := r.toLower
    if normalized = "model" || normalized = "assistant" then "assistant"
    else if normalized = "system" then "system"
    else if normalized = "tool" then "tool"
    else "user"

/-- `OpenAIClient.partToOpenAIContentParts`. -/
def partToOpenAIContentParts (p : GPart) : List OAIContentItem :=
  match p.text with
  | some s => if s = "" then [] else [.text (some s)]
  | none =>
    if strTruthy (p.inlineData.bind (·.data)) then
      let mime := p.inlineData.bind (·.mimeType)
      if (mime.map (·.startsWith "image/")).getD false then
        [.imageUrl (some ("data:" ++ mime.getD "" ++ ";base64," ++
          (p.inlineData.bind (·.data)).getD ""))]
      else
        [.text (some ("[Binary data: " ++ mime.getD "application/octet-stream" ++ "]"))]
    else if strTruthy (p.fileData.bind (·.fileUri)) then
      let label := ((p.fileData.bind (·.displayName)).getD
        ((p.fileData.bind (·.fileUri)).getD ""))
      [.text (some ("[File reference: " ++ label ++ "]"))]
    else if strTruthy (p.executableCode.bind (·.code)) then
      let language := (p.executableCode.bind (·.language)).getD "text"
      [.text (some ("```" ++ language ++ "\n" ++
        (p.executableCode.bind (·.code)).getD "" ++ "\n```"))]
    else
      match p.codeExecutionResult with
      | some v =>
        if v.truthy then [.text (some ("Code execution result:\n" ++ stringifyUnknown v))]
        else []
      | none => []

abbrev CallIdQueue := List (String × List String)

def queueGet (q : CallIdQueue) (k : String) : Option (List String) :=
  (q.find? fun e => e.1 = k).map (·.2)

def queueSet (q : CallIdQueue) (k : String) (v : List String) : CallIdQueue :=
  match q with
  | [] => [(k, v)]
  | e :: rest => if e.1 = k then (k, v) :: rest else e :: queueSet rest k v

def queueDelete (q : CallIdQueue) (k : String) : CallIdQueue :=
  q.filter fun e => !(e.1 = k)

/-- `OpenAIClient.rememberToolCallId`. -/
def rememberToolCallId (q : CallIdQueue) (name id : String) : CallIdQueue :=
  queueSet q name ((queueGet q name).getD [] ++ [id])

/-- `OpenAIClient.consumeToolCallId`. -/
def consumeToolCallId (q : CallIdQueue) (name : Option String) : Option String × CallIdQueue :=
  if !strTruthy name then (none, q)
  else
    let k := name.getD ""
    match queueGet q k with
    | none => (none, q)
    | some [] => (none, q)
    | some (v :: rest) =>
      (some v, if rest.isEmpty then queueDelete q k else queueSet q k rest)

/-- `OpenAIClient.fromFunctionCallPart`. -/
def fromFunctionCallPart (fc : FunctionCall) (q : CallIdQueue) (n : Nat) :
    OpenAIToolCallMessage × CallIdQueue × Nat :=
  let r := match fc.id with
    | some i => (i, n)
    | none => (genId n, n + 1)
  let q' := if strTruthy fc.name then rememberToolCallId q (fc.name.getD "") r.1 else q
  ({ id := some r.1,
     function := some { name := some (fc.name.getD "tool_call"),
                        arguments := some (String.mk (fc.args.getD .objNil).stringifyC) } },
   q', r.2)

/-- `OpenAIClient.toToolMessage`. -/
def toToolMessage (fr : FunctionResponse) (q : CallIdQueue) (n : Nat) :
    OpenAIChatMessage × CallIdQueue × Nat :=
  let r : String × CallIdQueue × Nat :=
    if strTruthy fr.id then (fr.id.getD "", q, n)
    else
      let c := consumeToolCallId q fr.name
      if strTruthy c.1 then (c.1.getD "", c.2, n)
      else (genId n, c.2, n + 1)
  let respVal := match fr.response with
    | some Json.null => Json.objNil
    | some v => v
    | none => Json.objNil
  (.tool r.1 fr.name (stringifyUnknown respVal), r.2.1, r.2.2)

/-- The part loop of `pushContent` in `OpenAIClient.buildMessages`:
tool messages are pushed as they are met, text parts and tool calls are
collected for the turn's own message. -/
def pushContentParts (q : CallIdQueue) (n : Nat) (out : List OpenAIChatMessage)
    (textParts : List OAIContentItem) (toolCalls : List OpenAIToolCallMessage) :
    List GPart →
      List OpenAIChatMessage × List OAIContentItem × List OpenAIToolCallMessage ×
      CallIdQueue × Nat
  | [] => (out, textParts, toolCalls, q, n)
  | p :: ps =>
    match p.functionResponse with
    | some fr =>
      let r := toToolMessage fr q n
      pushContentParts r.2.1 r.2.2 (out ++ [r.1]) textParts toolCalls ps
    | none =>
      match p.functionCall with
      | some fc =>
        let r := fromFunctionCallPart fc q n
        pushContentParts r.2.1 r.2.2 out textParts (toolCalls ++ [r.1]) ps
      | none =>
        pushContentParts q n out (textParts ++ partToOpenAIContentParts p) toolCalls ps

/-- `pushContent` for a single turn. -/
def pushContent (c : Content) (msgs : List OpenAIChatMessage) (q : CallIdQueue) (n : Nat) :
    List OpenAIChatMessage × CallIdQueue × Nat :=
  let role := OpenAI.mapRole c.role
  if role = "tool" then (msgs, q, n)
  else
    let r := pushContentParts q n msgs [] [] c.parts
    let out := r.1
    let textParts := r.2.1
    let toolCalls := r.2.2.1
    if textParts.isEmpty && toolCalls.isEmpty then (out, r.2.2.2.1, r.2.2.2.2)
    else
      let message : OpenAIChatMessage :=
        .plain (if role = "system" || role = "assistant" then role else "user")
          (if textParts.isEmpty then .str "" else .items textParts)
          (if toolCalls.isEmpty then none else some toolCalls)
      (out ++ [message], r.2.2.2.1, r.2.2.2.2)

/-- `OpenAIClient.normalizeContentUnion`. -/
def normalizeContentUnion (content : Option ContentListUnion) : List Content :=
  match content with
  | none => []
  | some u => toContents u

def pushContentLoop (msgs : List OpenAIChatMessage) (q : CallIdQueue) (n : Nat) :
    List Content → List OpenAIChatMessage × Nat
  | [] => (msgs, n)
  | c :: cs =>
    let r := pushContent c msgs q n
    pushContentLoop r.1 r.2.1 r.2.2 cs

/-- `OpenAIClient.buildMessages` (threading the `randomUUID` counter). -/
def buildMessages (req : GenParams) (n : Nat) : List OpenAIChatMessage × Nat :=
  let systemMessages := normalizeContentUnion (req.config.bind (·.systemInstruction))
  let sysMsgs : List OpenAIChatMessage := systemMessages.map fun c =>
    .plain "system"
      (.str (if c.parts.isEmpty then ""
             else String.intercalate "\n" (c.parts.map fun p =>
               match p.text with
               | some t => if t = "" then "" else t
               | none => "")))
      none
  pushContentLoop sysMsgs [] n (toContents req.contents)

/-- `OpenAIClient.extractFunctionDeclarations`. -/
def extractFunctionDeclarations (tools : Option ToolListUnion) : List FunctionDeclaration :=
  match tools with
  | none => []
  | some ts =>
    let toolArray := match ts with
      | .one t => [t]
      | .many l => l
    toolArray.flatMap fun t => t.functionDeclarations.getD []

def startsWithL : List Char → List Char → Bool
  | [], _ => true
  | _, [] => false
  | p :: ps, c :: cs => p = c && startsWithL ps cs

/-- `String.prototype.includes` on character lists. -/
def containsSub (s pat : List Char) : Bool :=
  startsWithL pat s ||
  match s with
  | [] => false
  | _ :: r => containsSub r pat

/-- `OpenAIClient.resolveModel` over the constructor-resolved
configuration (`localModel.model`, `defaultModel`). -/
def resolveModel (localModelModel : Option String) (defaultModel : String)
    (requestedModel : Option String) : String :=
  if strTruthy localModelModel then localModelModel.getD ""
  else
    match requestedModel with
    | some rm =>
      if rm ≠ "" && !(containsSub rm.toLower.toList "gemini".toList) then rm
      else defaultModel
    | none => defaultModel

inductive ToolChoice where
  | auto | required | noneChoice
  | forced (name : String)
deriving DecidableEq

/-- `OpenAIClient.resolveToolChoice`. -/
def resolveToolChoice (config : GenConfig) : Option ToolChoice :=
  match config.toolConfigMode with
  | none => none
  | some .NONE => some .noneChoice
  | some .ANY =>
    match config.allowedFunctionNames with
    | some [a] => some (.forced a)
    | _ => some .required
  | some .AUTO => some .auto
  | some .VALIDATED => some .auto

structure OAIToolDef where
  name : String
  description : Option String := none
  parameters : Json
deriving DecidableEq

inductive RespFormat where
  | jsonObject
  | jsonSchema (name : String) (schema : Json)
deriving DecidableEq

/-- The OpenAI chat-completion request payload. -/
structure OAIRequest where
  model : String
  messages : List OpenAIChatMessage
  temperature : Option Int := none
  top_p : Option Int := none
  presence_penalty : Option Int := none
  frequency_penalty : Option Int := none
  max_tokens : Option Int := none
  n : Option Int := none
  stop : Option (List String) := none
  tools : Option (List OAIToolDef) := none
  tool_choice : Option ToolChoice := none
  response_format : Option RespFormat := none
  stream : Bool
  stream_options_include_usage : Option Bool := none
  user : String
deriving DecidableEq

def defaultToolSchema : Json :=
  .objCons "type" (.str "object") (.objCons "properties" .objNil .objNil)

/-- `OpenAIClient.buildChatCompletionRequest`: fails when the
conversation yields no messages. -/
def buildChatCompletionRequest (localModelModel : Option String) (defaultModel : String)
    (req : GenParams) (stream : Bool) (userPromptId : String) (n : Nat) :
    Except String OAIRequest × Nat :=
  let bm := buildMessages req n
  if bm.1.isEmpty then
    (.error "Unable to build OpenAI request: no messages provided.", bm.2)
  else
    let config := req.config.getD {}
    let functionDeclarations := extractFunctionDeclarations config.tools
    let base : OAIRequest :=
      { model := resolveModel localModelModel defaultModel req.model,
        messages := bm.1,
        temperature := config.temperature,
        top_p := config.topP,
        presence_penalty := config.presencePenalty,
        frequency_penalty := config.frequencyPenalty,
        max_tokens := config.maxOutputTokens,
        stop := config.stopSequences,
        user := String.mk (userPromptId.toList.take 64),
        stream := stream }
    let withN := if !stream then { base with n := some (config.candidateCount.getD 1) } else base
    let withTools :=
      if functionDeclarations.isEmpty then withN
      else
        let toolDefs : List OAIToolDef := functionDeclarations.map fun fn =>
          { name := fn.name.getD "tool_call",
            description := fn.description,
            parameters := (cloneSchema (optNullish fn.parametersJsonSchema fn.parameters)).getD
              defaultToolSchema }
        let w := { withN with tools := some toolDefs }
        match resolveToolChoice config with
        | some tc => { w with tool_choice := some tc }
        | none => w
    let withFormat :=
      if config.responseMimeType = some "application/json" then
        match config.responseJsonSchema with
        | some v =>
          if v.truthy then
            let fmt := RespFormat.jsonSchema "gemini_response"
              ((cloneSchema (some v)).getD defaultToolSchema)
            { withTools with response_format := some fmt }
          else { withTools with response_format := some .jsonObject }
        | none => { withTools with response_format := some .jsonObject }
      else withTools
    let final :=
      if stream then { withFormat with stream_options_include_usage := some true } else withFormat
    (.ok final, bm.2)

/-!  ## Claim-side predicates and history descriptions

These definitions phrase the spec's properties (matching, ordering,
accumulator history) independently of the implementation, to be related
to the embedded code by the theorems below.  -/

/-- Every turn carries at least one content block. -/
def partsNonempty (cs : List Content) : Prop := ∀ c ∈ cs, c.parts ≠ []

/-- Every `tool_call` block carries an id. -/
def callsHaveIds (cs : List Content) : Prop :=
  ∀ p ∈ flatParts cs, ∀ fc, p.functionCall = some fc → fc.id.isSome

/-- `p` is a `tool_result` block referencing call id `x`. -/
def isRespPartWithId (p : GPart) (x : String) : Bool :=
  p.functionCall.isNone &&
  (match p.functionResponse with
   | some fr => fr.id = some x
   | none => false)

/-- `p` is a `tool_call` block with id `x`. -/
def isCallPartWithId (p : GPart) (x : String) : Bool :=
  match p.functionCall with
  | some fc => fc.id = some x
  | none => false

/-- Walking the blocks in order, every `tool_result` with a (truthy)
call id refers to a `tool_call` id seen before it (`S` seeds the ids
already seen). -/
def orderedResp (S : Finset String) : List GPart → Bool
  | [] => true
  | p :: ps =>
    match p.functionCall with
    | some fc =>
      match fc.id with
      | some x => orderedResp (insert x S) ps
      | none => orderedResp S ps
    | none =>
      match p.functionResponse with
      | some fr =>
        match fr.id with
        | some x => (x = "" || decide (x ∈ S)) && orderedResp S ps
        | none => orderedResp S ps
      | none => orderedResp S ps

/-- The ids seen after walking the blocks, mirroring the threading of
`orderedResp`. -/
def seenAfterParts (S : Finset String) : List GPart → Finset String
  | [] => S
  | p :: ps =>
    seenAfterParts
      (match p.functionCall with
       | some fc =>
         match fc.id with
         | some x => insert x S
         | none => S
       | none => S) ps

/-- The resolved ids after walking the blocks, assuming every truthy
`tool_result` id resolves. -/
def resolvedAfterParts (R : Finset String) : List GPart → Finset String
  | [] => R
  | p :: ps =>
    resolvedAfterParts
      (match p.functionCall with
       | some _ => R
       | none =>
         match p.functionResponse with
         | some fr =>
           match fr.id with
           | some x => if x = "" then R else insert x R
           | none => R
         | none => R) ps

/-- Every `tool_call` with a truthy id has a matching `tool_result`
block somewhere in the conversation. -/
def callsMatched (cs : List Content) : Prop :=
  ∀ p ∈ flatParts cs, ∀ fc, p.functionCall = some fc →
    ∀ x, fc.id = some x → x ≠ "" → ∃ q ∈ flatParts cs, isRespPartWithId q x

/-- Every `tool_result` with a truthy id references some `tool_call`
block present in the conversation. -/
def respsMatched (cs : List Content) : Prop :=
  ∀ p ∈ flatParts cs, p.functionCall = none →
    ∀ fr, p.functionResponse = some fr →
      ∀ x, fr.id = some x → x ≠ "" → ∃ q ∈ flatParts cs, isCallPartWithId q x

instance optForallDec {α : Type} (o : Option α) (P : α → Prop) [∀ a, Decidable (P a)] :
    Decidable (∀ a, o = some a → P a) :=
  match o with
  | some a =>
    decidable_of_iff (P a) ⟨fun h b hb => by cases hb; exact h, fun h => h a rfl⟩
  | none => isTrue fun a ha => by cases ha

instance (cs : List Content) : Decidable (partsNonempty cs) := by
  unfold partsNonempty; infer_instance

instance (cs : List Content) : Decidable (callsHaveIds cs) := by
  unfold callsHaveIds; infer_instance

instance (cs : List Content) : Decidable (callsMatched cs) := by
  unfold callsMatched; infer_instance

instance (cs : List Content) : Decidable (respsMatched cs) := by
  unfold respsMatched; infer_instance

/-- Number of `tool_result` blocks carrying no call id at all. -/
def countNoIdResults (cs : List Content) : Nat :=
  (flatParts cs).countP fun p =>
    p.functionCall.isNone &&
    (match p.functionResponse with
     | some fr => fr.id.isNone
     | none => false)

/-- `acc` after appending a whole sequence of streaming deltas. -/
def appendAll (acc : ToolCallAccumulator) (ds : List OpenAIToolCallMessage) :
    ToolCallAccumulator :=
  ds.foldl ToolCallAccumulator.append acc

/-- The last truthy `id` carried by the delta sequence. -/
def deltaHistId (prev : Option String) : List OpenAIToolCallMessage → Option String
  | [] => prev
  | d :: ds => deltaHistId (if strTruthy d.id then d.id else prev) ds

/-- The last truthy `function.name` carried by the delta sequence. -/
def deltaHistName (prev : Option String) : List OpenAIToolCallMessage → Option String
  | [] => prev
  | d :: ds =>
    deltaHistName
      (if strTruthy (d.function.bind (·.name)) then d.function.bind (·.name) else prev) ds

/-- The concatenation of all argument fragments in the delta sequence. -/
def deltaHistRaw (r : String) : List OpenAIToolCallMessage → String
  | [] => r
  | d :: ds =>
    deltaHistRaw
      (match d.function.bind (·.arguments) with
       | some a => r ++ a
       | none => r) ds

/-- The last truthy parse among the successive fragment-concatenation
prefixes (the spec's best-effort partial arguments). -/
def deltaHistParsed (prev : Option Json) (r : String) :
    List OpenAIToolCallMessage → Option Json
  | [] => prev
  | d :: ds =>
    match d.function.bind (·.arguments) with
    | some a =>
      let raw := r ++ a
      let prev' := match safeJsonParse (some raw) with
        | some v => if v.truthy then some v else prev
        | none => prev
      deltaHistParsed prev' raw ds
    | none => deltaHistParsed prev r ds

/-- The arguments the spec (as amended) assigns to a slot finalized at
stream end after receiving the delta sequence `ds`: the parse of the
full concatenation when that is a truthy JSON value, else the last
truthy prefix parse, else the (falsy) parse of the full concatenation,
else a `raw`-wrapper object, with `\x7b\x7d` for an empty fragment. -/
def finalizeArgsSpec (ds : List OpenAIToolCallMessage) : Json :=
  let raw := deltaHistRaw "" ds
  let pf := safeJsonParse (some raw)
  if jsonOptTruthy pf then pf.getD .objNil
  else
    match deltaHistParsed none "" ds with
    | some v => v
    | none =>
      match pf with
      | some v =>
        if v = Json.null then
          if raw = "" then Json.objNil else Json.objCons "raw" (.str raw) Json.objNil
        else v
      | none => if raw = "" then Json.objNil else Json.objCons "raw" (.str raw) Json.objNil

/-!  ## Concrete instances used by witnesses and counterexamples  -/

/-- A conversation whose only block is a `tool_result` referencing an
id never seen as a `tool_call`. -/
def cexDanglingResult : List Content :=
  [{ role := some "user", parts := [{ functionResponse := some { id := some "x" } }] }]

/-- A conversation whose only block is a `tool_call` with the empty
string as id. -/
def cexEmptyIdCall : List Content :=
  [{ role := some "model",
     parts := [{ functionCall := some { id := some "", name := some "f" } }] }]

/-- A fully matched conversation. -/
def convMatched : List Content :=
  [{ role := some "model",
     parts := [{ text := some "hi" },
               { functionCall := some { id := some "1", name := some "f" } }] },
   { role := some "user", parts := [{ functionResponse := some { id := some "1" } }] }]

/-- A conversation with an id-less `tool_call`. -/
def convNoIdCall : List Content :=
  [{ role := some "model",
     parts := [{ functionCall := some { id := none, name := some "f" } }] }]

/-- The two-character string holding an empty JSON object. -/
def bracesStr : String := String.mk [braceO, braceC]

def deltaA : OpenAIToolCallMessage :=
  { id := some "a", function := some { name := some "f", arguments := some bracesStr },
    index := some 0 }

def deltaB : OpenAIToolCallMessage :=
  { id := some "b", function := some { name := some "g", arguments := some bracesStr },
    index := some 0 }

def parserSt0 : OpenAIStreamParserState := { fallbackModel := "fallback-model" }

/-- Argument fragments `"0"` then `"x"`: the prefix `"0"` parses, the
concatenation `"0x"` does not. -/
def c7deltas : List OpenAIToolCallMessage :=
  [{ function := some { arguments := some "0" } },
   { function := some { arguments := some "x" } }]

/-- A single argument fragment `"null"`: the concatenation is valid
JSON, but its parse is `null`, which `??` skips. -/
def c7nullDeltas : List OpenAIToolCallMessage :=
  [{ function := some { arguments := some "null" } }]

def c7flushState : OpenAIStreamParserState :=
  { toolCallBuffers := [(0, appendAll {} c7deltas)], fallbackModel := "m" }

def c4chunk : OpenAIChatCompletionChunk := { id := "chunk-1", model := "" }

def c4choice : OpenAIChatCompletionChunkChoice := { deltaContent := some (.str "Hello") }

def c4st : OpenAIStreamParserState := { fallbackModel := "fm" }

def c4resp : GenerateContentResponse :=
  { modelVersion := "fm", responseId := some "chunk-1",
    candidates := [{ content := { role := some "model", parts := [{ text := some "Hello" }] } }] }

def c4st2 : OpenAIStreamParserState :=
  { toolCallBuffers := [], lastResponseId := some "chunk-1", fallbackModel := "fm" }

/-- A request whose conversation is the empty list. -/
def emptyReq : GenParams := { contents := .many [] }

def c9payload : String :=
  "\x7b\"name\":\"run_shell\",\"arguments\":\x7b\"command\":\"ls\"\x7d\x7d"

def c9badPayload : String := "not json"

/-- A fenced `tool_call` block whose content is not JSON but contains an
XML-tagged call: the fenced pass keeps the block, the XML pass then
extracts from inside it. -/
def c9nested : String :=
  "```tool_call <tool_call>\x7b\"name\":\"f\"\x7d</tool_call> ```"

/-- The call extracted from `c9payload` at counter `0`. -/
def c9call : FunctionCall :=
  { id := some "uuid-0", name := some "run_shell",
    args := some (Json.objCons "command" (Json.str "ls") Json.objNil),
    isClientInitiated := some false }

/-!  # Theorems

Helper lemmas first (shared across claims), then one theorem per claim
with its witness / counterexample.  -/

theorem flatParts_nil : flatParts [] = [] := rfl

theorem flatParts_cons (c : Content) (cs : List Content) :
    flatParts (c :: cs) = c.parts ++ flatParts cs := by
  simp [flatParts]

theorem seenAfterParts_append (S : Finset String) (ps qs : List GPart) :
    seenAfterParts S (ps ++ qs) = seenAfterParts (seenAfterParts S ps) qs := by
  induction ps generalizing S with
  | nil => simp [seenAfterParts]
  | cons p ps ih => simp only [List.cons_append, seenAfterParts]; exact ih _

theorem resolvedAfterParts_append (R : Finset String) (ps qs : List GPart) :
    resolvedAfterParts R (ps ++ qs) = resolvedAfterParts (resolvedAfterParts R ps) qs := by
  induction ps generalizing R with
  | nil => simp [resolvedAfterParts]
  | cons p ps ih => simp only [List.cons_append, resolvedAfterParts]; exact ih _

theorem orderedResp_append (S : Finset String) (ps qs : List GPart) :
    orderedResp S (ps ++ qs) =
      (orderedResp S ps && orderedResp (seenAfterParts S ps) qs) := by
  induction ps generalizing S with
  | nil => simp [orderedResp, seenAfterParts]
  | cons p ps ih =>
    simp only [List.cons_append, orderedResp, seenAfterParts]
    cases hfc : p.functionCall with
    | some fc =>
      cases hid : fc.id with
      | some x => simp [hid, ih]
      | none => simp [hid, ih]
    | none =>
      cases hfr : p.functionResponse with
      | some fr =>
        cases hid : fr.id with
        | some x => simp [hid, ih, Bool.and_assoc]
        | none => simp [hid, ih]
      | none => simp [ih]

theorem mem_seenAfterParts (x : String) (S : Finset String) (ps : List GPart) :
    x ∈ seenAfterParts S ps ↔ x ∈ S ∨ ∃ p ∈ ps, isCallPartWithId p x := by
  induction ps generalizing S with
  | nil => simp [seenAfterParts]
  | cons p ps ih =>
    simp only [seenAfterParts]
    cases hfc : p.functionCall with
    | some fc =>
      cases hid : fc.id with
      | some y =>
        simp only [hid, ih, List.mem_cons, Finset.mem_insert]
        constructor
        · rintro ((rfl | hS) | ⟨q, hq, hqx⟩)
          · exact Or.inr ⟨p, Or.inl rfl, by simp [isCallPartWithId, hfc, hid]⟩
          · exact Or.inl hS
          · exact Or.inr ⟨q, Or.inr hq, hqx⟩
        · rintro (hS | ⟨q, (rfl | hq), hqx⟩)
          · exact Or.inl (Or.inr hS)
          · simp only [isCallPartWithId, hfc, hid] at hqx
            exact Or.inl (Or.inl (Eq.symm (by simpa using hqx)))
          · exact Or.inr ⟨q, hq, hqx⟩
      | none =>
        simp only [hid, ih, List.mem_cons]
        constructor
        · rintro (hS | ⟨q, hq, hqx⟩)
          · exact Or.inl hS
          · exact Or.inr ⟨q, Or.inr hq, hqx⟩
        · rintro (hS | ⟨q, (rfl | hq), hqx⟩)
          · exact Or.inl hS
          · simp [isCallPartWithId, hfc, hid] at hqx
          · exact Or.inr ⟨q, hq, hqx⟩
    | none =>
      simp only [ih, List.mem_cons]
      constructor
      · rintro (hS | ⟨q, hq, hqx⟩)
        · exact Or.inl hS
        · exact Or.inr ⟨q, Or.inr hq, hqx⟩
      · rintro (hS | ⟨q, (rfl | hq), hqx⟩)
        · exact Or.inl hS
        · simp [isCallPartWithId, hfc] at hqx
        · exact Or.inr ⟨q, hq, hqx⟩

theorem mem_resolvedAfterParts (x : String) (R : Finset String) (ps : List GPart) :
    x ∈ resolvedAfterParts R ps ↔
      x ∈ R ∨ (x ≠ "" ∧ ∃ p ∈ ps, isRespPartWithId p x) := by
  induction ps generalizing R with
  | nil => simp [resolvedAfterParts]
  | cons p ps ih =>
    simp only [resolvedAfterParts]
    cases hfc : p.functionCall with
    | some fc =>
      simp only [ih, List.mem_cons]
      constructor
      · rintro (hR | ⟨hne, q, hq, hqx⟩)
        · exact Or.inl hR
        · exact Or.inr ⟨hne, q, Or.inr hq, hqx⟩
      · rintro (hR | ⟨hne, q, (rfl | hq), hqx⟩)
        · exact Or.inl hR
        · simp [isRespPartWithId, hfc] at hqx
        · exact Or.inr ⟨hne, q, hq, hqx⟩
    | none =>
      cases hfr : p.functionResponse with
      | some fr =>
        cases hid : fr.id with
        | some y =>
          by_cases hy : y = ""
          · subst hy
            simp only [hid, if_pos rfl, ih, List.mem_cons]
            constructor
            · rintro (hR | ⟨hne, q, hq, hqx⟩)
              · exact Or.inl hR
              · exact Or.inr ⟨hne, q, Or.inr hq, hqx⟩
            · rintro (hR | ⟨hne, q, (rfl | hq), hqx⟩)
              · exact Or.inl hR
              · simp only [isRespPartWithId, hfc, hfr, hid] at hqx
                simp only [Option.isNone_none, Bool.true_and] at hqx
                exact absurd (Eq.symm (by simpa using hqx)) hne
              · exact Or.inr ⟨hne, q, hq, hqx⟩
          · simp only [hid, if_neg hy, ih, List.mem_cons, Finset.mem_insert]
            constructor
            · rintro ((rfl | hR) | ⟨hne, q, hq, hqx⟩)
              · exact Or.inr ⟨hy, p, Or.inl rfl, by simp [isRespPartWithId, hfc, hfr, hid]⟩
              · exact Or.inl hR
              · exact Or.inr ⟨hne, q, Or.inr hq, hqx⟩
            · rintro (hR | ⟨hne, q, (rfl | hq), hqx⟩)
              · exact Or.inl (Or.inr hR)
              · simp only [isRespPartWithId, hfc, hfr, hid] at hqx
                simp only [Option.isNone_none, Bool.true_and] at hqx
                exact Or.inl (Or.inl (Eq.symm (by simpa using hqx)))
              · exact Or.inr ⟨hne, q, hq, hqx⟩
        | none =>
          simp only [hid, ih, List.mem_cons]
          constructor
          · rintro (hR | ⟨hne, q, hq, hqx⟩)
            · exact Or.inl hR
            · exact Or.inr ⟨hne, q, Or.inr hq, hqx⟩
          · rintro (hR | ⟨hne, q, (rfl | hq), hqx⟩)
            · exact Or.inl hR
            · simp [isRespPartWithId, hfc, hfr, hid] at hqx
            · exact Or.inr ⟨hne, q, hq, hqx⟩
      | none =>
        simp only [ih, List.mem_cons]
        constructor
        · rintro (hR | ⟨hne, q, hq, hqx⟩)
          · exact Or.inl hR
          · exact Or.inr ⟨hne, q, Or.inr hq, hqx⟩
        · rintro (hR | ⟨hne, q, (rfl | hq), hqx⟩)
          · exact Or.inl hR
          · simp [isRespPartWithId, hfc, hfr] at hqx
          · exact Or.inr ⟨hne, q, hq, hqx⟩

theorem orderedResp_resp_witness (ps : List GPart) (S : Finset String) (p : GPart)
    (fr : FunctionResponse) (x : String)
    (hord : orderedResp S ps = true) (hp : p ∈ ps)
    (hfc : p.functionCall = none) (hfr : p.functionResponse = some fr)
    (hx : fr.id = some x) (hne : x ≠ "") :
    x ∈ S ∨ ∃ q ∈ ps, isCallPartWithId q x := by
  induction ps generalizing S with
  | nil => cases hp
  | cons q ps ih =>
    simp only [orderedResp] at hord
    rcases List.mem_cons.mp hp with rfl | hp'
    · simp only [hfc, hfr, hx] at hord
      have h1 := (Bool.and_eq_true _ _).mp hord |>.1
      rcases (Bool.or_eq_true _ _).mp h1 with h | h
      · exact absurd (by simpa using h) hne
      · exact Or.inl (by simpa using h)
    · cases hqc : q.functionCall with
      | some fc =>
        cases hqid : fc.id with
        | some y =>
          simp only [hqc, hqid] at hord
          rcases ih _ hord hp' with h | ⟨r, hr, hrx⟩
          · rcases Finset.mem_insert.mp h with rfl | h'
            · exact Or.inr ⟨q, List.mem_cons_self _ _, by simp [isCallPartWithId, hqc, hqid]⟩
            · exact Or.inl h'
          · exact Or.inr ⟨r, List.mem_cons_of_mem _ hr, hrx⟩
        | none =>
          simp only [hqc, hqid] at hord
          rcases ih _ hord hp' with h | ⟨r, hr, hrx⟩
          · exact Or.inl h
          · exact Or.inr ⟨r, List.mem_cons_of_mem _ hr, hrx⟩
      | none =>
        have hord' : orderedResp S ps = true := by
          simp only [hqc] at hord
          cases hqr : q.functionResponse with
          | some fr2 =>
            simp only [hqr] at hord
            cases hqid : fr2.id with
            | some y =>
              simp only [hqid] at hord
              exact ((Bool.and_eq_true _ _).mp hord).2
            | none => simpa only [hqid] using hord
          | none => simpa only [hqr] using hord
        rcases ih _ hord' hp' with h | ⟨r, hr, hrx⟩
        · exact Or.inl h
        · exact Or.inr ⟨r, List.mem_cons_of_mem _ hr, hrx⟩

theorem pass1Parts_id (ps : List GPart) : ∀ st : NState,
    (∀ p ∈ ps, ∀ fc, p.functionCall = some fc → fc.id.isSome) →
    orderedResp st.callIds ps = true →
    pass1Parts st ps =
      (⟨seenAfterParts st.callIds ps, resolvedAfterParts st.resolved ps, st.ctr⟩, ps, ps) := by
  induction ps with
  | nil => intro st _ _; simp [pass1Parts, seenAfterParts, resolvedAfterParts]
  | cons p ps ih =>
    intro st hid hord
    simp only [orderedResp] at hord
    simp only [pass1Parts, pass1Part, seenAfterParts, resolvedAfterParts]
    cases hfc : p.functionCall with
    | some fc =>
      rcases Option.isSome_iff_exists.mp (hid p (List.mem_cons_self _ _) fc hfc) with ⟨x, hx⟩
      simp only [hfc, hx] at hord ⊢
      rw [ih ⟨insert x st.callIds, st.resolved, st.ctr⟩
        (fun q hq => hid q (List.mem_cons_of_mem _ hq)) hord]
    | none =>
      simp only [hfc] at hord ⊢
      cases hfr : p.functionResponse with
      | some fr =>
        simp only [hfr] at hord ⊢
        cases hidr : fr.id with
        | some x =>
          simp only [hidr] at hord ⊢
          have hrest := ((Bool.and_eq_true _ _).mp hord).2
          by_cases hx : x = ""
          · subst hx
            rw [if_pos rfl]
            rw [ih st (fun q hq => hid q (List.mem_cons_of_mem _ hq)) hrest]
            simp
          · have hmem : x ∈ st.callIds := by
              have h1 := ((Bool.and_eq_true _ _).mp hord).1
              rcases (Bool.or_eq_true _ _).mp h1 with h | h
              · exact absurd (by simpa using h) hx
              · simpa using h
            simp only [if_neg hx, if_pos hmem]
            rw [ih ⟨st.callIds, insert x st.resolved, st.ctr⟩
              (fun q hq => hid q (List.mem_cons_of_mem _ hq)) hrest]
        | none =>
          simp only [hidr] at hord ⊢
          rw [ih st (fun q hq => hid q (List.mem_cons_of_mem _ hq)) hord]
      | none =>
        simp only [hfr] at hord ⊢
        rw [ih st (fun q hq => hid q (List.mem_cons_of_mem _ hq)) hord]

theorem pass1Contents_id (cs : List Content) : ∀ st : NState,
    (∀ p ∈ flatParts cs, ∀ fc, p.functionCall = some fc → fc.id.isSome) →
    partsNonempty cs →
    orderedResp st.callIds (flatParts cs) = true →
    pass1Contents st cs =
      (⟨seenAfterParts st.callIds (flatParts cs),
        resolvedAfterParts st.resolved (flatParts cs), st.ctr⟩, cs, cs) := by
  induction cs with
  | nil => intro st _ _ _; simp [pass1Contents, flatParts, seenAfterParts, resolvedAfterParts]
  | cons c cs ih =>
    intro st hid hne hord
    rw [flatParts_cons] at hid hord
    rw [orderedResp_append] at hord
    have h1 := ((Bool.and_eq_true _ _).mp hord).1
    have h2 := ((Bool.and_eq_true _ _).mp hord).2
    simp only [pass1Contents]
    rw [pass1Parts_id c.parts st (fun p hp => hid p (List.mem_append_left _ hp)) h1]
    have hcne := hne c (List.mem_cons_self _ _)
    have hie : c.parts.isEmpty = false := by
      cases hps : c.parts with
      | nil => exact absurd hps hcne
      | cons a l => simp [hps]
    rw [ih ⟨seenAfterParts st.callIds c.parts, resolvedAfterParts st.resolved c.parts, st.ctr⟩
      (fun p hp => hid p (List.mem_append_right _ hp))
      (fun d hd => hne d (List.mem_cons_of_mem _ hd)) h2]
    simp only [hie, Bool.false_eq_true, if_false, flatParts_cons,
      seenAfterParts_append, resolvedAfterParts_append]

theorem pass2_noop (u : Finset String) (cs : List Content)
    (hu : ∀ x ∈ u, x = "") (hne : partsNonempty cs) : pass2 u cs = cs := by
  induction cs with
  | nil => rfl
  | cons c cs ih =>
    simp only [pass2, List.filterMap_cons]
    have hkeep : ∀ p ∈ c.parts, (!pass2Drop u p) = true := by
      intro p _
      simp only [Bool.not_eq_true']
      unfold pass2Drop
      cases hfc : p.functionCall with
      | some fc =>
        cases hid : fc.id with
        | some x =>
          by_cases hxu : x ∈ u
          · have hx : x = "" := hu x hxu
            subst hx
            simp [hid]
          · simp [hid, hxu]
        | none => simp [hid]
      | none => simp
    rw [List.filter_eq_self.mpr hkeep]
    have hcne := hne c (List.mem_cons_self _ _)
    have hie : c.parts.isEmpty = false := by
      cases hps : c.parts with
      | nil => exact absurd hps hcne
      | cons a l => simp [hps]
    simp only [hie, Bool.false_eq_true, if_false]
    have hrest := ih (fun d hd => hne d (List.mem_cons_of_mem _ hd))
    unfold pass2 at hrest
    rw [hrest]

theorem normalize_id (cs : List Content)
    (hne : partsNonempty cs)
    (hid : ∀ p ∈ flatParts cs, ∀ fc, p.functionCall = some fc → fc.id.isSome)
    (hord : orderedResp ∅ (flatParts cs) = true)
    (hmatch : callsMatched cs) :
    normalizeToolHistory cs = cs := by
  have hpass := pass1Contents_id cs ⟨∅, ∅, 0⟩ hid hne hord
  have hsub1 : resolvedAfterParts ∅ (flatParts cs) ⊆ seenAfterParts ∅ (flatParts cs) := by
    intro x hx
    rcases (mem_resolvedAfterParts x ∅ (flatParts cs)).mp hx with h | ⟨hxne, p, hp, hpx⟩
    · exact absurd h (Finset.not_mem_empty x)
    · simp only [isRespPartWithId, Bool.and_eq_true] at hpx
      rcases hfr : p.functionResponse with _ | fr
      · rw [hfr] at hpx; exact absurd hpx.2 (by simp)
      · rw [hfr] at hpx
        have hidr : fr.id = some x := by
          have := hpx.2
          simp only at this
          exact of_decide_eq_true this
        have hfcn : p.functionCall = none := by
          have := hpx.1
          simpa [Option.isNone_iff_eq_none] using this
        rcases orderedResp_resp_witness (flatParts cs) ∅ p fr x hord hp hfcn hfr hidr hxne with
          h | ⟨q, hq, hqx⟩
        · exact absurd h (Finset.not_mem_empty x)
        · exact (mem_seenAfterParts x ∅ (flatParts cs)).mpr (Or.inr ⟨q, hq, hqx⟩)
  have hsub2 : ∀ x ∈ seenAfterParts ∅ (flatParts cs), x ≠ "" →
      x ∈ resolvedAfterParts ∅ (flatParts cs) := by
    intro x hx hxne
    rcases (mem_seenAfterParts x ∅ (flatParts cs)).mp hx with h | ⟨p, hp, hpx⟩
    · exact absurd h (Finset.not_mem_empty x)
    · simp only [isCallPartWithId] at hpx
      rcases hfc : p.functionCall with _ | fc
      · rw [hfc] at hpx; simp at hpx
      · rw [hfc] at hpx
        have hidc : fc.id = some x := of_decide_eq_true hpx
        rcases hmatch p hp fc hfc x hidc hxne with ⟨q, hq, hqx⟩
        exact (mem_resolvedAfterParts x ∅ (flatParts cs)).mpr (Or.inr ⟨hxne, q, hq, hqx⟩)
  unfold normalizeToolHistory normalizeRun
  rw [hpass]
  by_cases hempty : "" ∈ seenAfterParts ∅ (flatParts cs)
  · have hnr : "" ∉ resolvedAfterParts ∅ (flatParts cs) := by
      intro h
      rcases (mem_resolvedAfterParts "" ∅ (flatParts cs)).mp h with h' | ⟨hne', _⟩
      · exact absurd h' (Finset.not_mem_empty _)
      · exact hne' rfl
    have hcardne : ¬((⟨seenAfterParts ∅ (flatParts cs), resolvedAfterParts ∅ (flatParts cs),
        (0 : Nat)⟩ : NState)).callIds.card =
        ((⟨seenAfterParts ∅ (flatParts cs), resolvedAfterParts ∅ (flatParts cs),
        (0 : Nat)⟩ : NState)).resolved.card := by
      simp only
      intro hc
      have heq := Finset.eq_of_subset_of_card_le hsub1 hc.le
      rw [← heq] at hempty
      exact hnr hempty
    simp only [hcardne, if_false]
    apply pass2_noop
    · intro x hx
      rcases Finset.mem_sdiff.mp hx with ⟨hin, hout⟩
      by_contra hxne
      exact hout (hsub2 x hin hxne)
    · exact hne
  · have hceq : seenAfterParts ∅ (flatParts cs) = resolvedAfterParts ∅ (flatParts cs) := by
      apply Finset.Subset.antisymm
      · intro x hx
        by_cases hxe : x = ""
        · subst hxe; exact absurd hx hempty
        · exact hsub2 x hx hxe
      · exact hsub1
    simp [hceq]

theorem pass1Part_call_some (st : NState) (p : GPart) (fc : FunctionCall) (x : String)
    (hfc : p.functionCall = some fc) (hx : fc.id = some x) :
    pass1Part st p = ({ st with callIds := insert x st.callIds }, p, some p) := by
  simp [pass1Part, hfc, hx]

theorem pass1Part_call_none (st : NState) (p : GPart) (fc : FunctionCall)
    (hfc : p.functionCall = some fc) (hx : fc.id = none) :
    pass1Part st p =
      ({ st with callIds := insert (genId st.ctr) st.callIds, ctr := st.ctr + 1 },
       { p with functionCall := some { fc with id := some (genId st.ctr) } },
       some { p with functionCall := some { fc with id := some (genId st.ctr) } }) := by
  simp [pass1Part, hfc, hx]

theorem pass1Part_resp_skip (st : NState) (p : GPart) (fr : FunctionResponse)
    (hfc : p.functionCall = none) (hfr : p.functionResponse = some fr)
    (hx : fr.id = none ∨ fr.id = some "") :
    pass1Part st p = (st, p, some p) := by
  rcases hx with hx | hx <;> simp [pass1Part, hfc, hfr, hx]

theorem pass1Part_resp_resolve (st : NState) (p : GPart) (fr : FunctionResponse) (x : String)
    (hfc : p.functionCall = none) (hfr : p.functionResponse = some fr)
    (hx : fr.id = some x) (hne : x ≠ "") (hmem : x ∈ st.callIds) :
    pass1Part st p = ({ st with resolved := insert x st.resolved }, p, some p) := by
  simp [pass1Part, hfc, hfr, hx, hne, hmem]

theorem pass1Part_resp_drop (st : NState) (p : GPart) (fr : FunctionResponse) (x : String)
    (hfc : p.functionCall = none) (hfr : p.functionResponse = some fr)
    (hx : fr.id = some x) (hne : x ≠ "") (hmem : x ∉ st.callIds) :
    pass1Part st p = (st, p, none) := by
  simp [pass1Part, hfc, hfr, hx, hne, hmem]

theorem pass1Part_plain (st : NState) (p : GPart)
    (hfc : p.functionCall = none) (hfr : p.functionResponse = none) :
    pass1Part st p = (st, p, some p) := by
  simp [pass1Part, hfc, hfr]

theorem pass1Parts_cons (st : NState) (p : GPart) (ps : List GPart) :
    pass1Parts st (p :: ps) =
      ((pass1Parts (pass1Part st p).1 ps).1,
       (pass1Part st p).2.1 :: (pass1Parts (pass1Part st p).1 ps).2.1,
       match (pass1Part st p).2.2 with
       | some q => q :: (pass1Parts (pass1Part st p).1 ps).2.2
       | none => (pass1Parts (pass1Part st p).1 ps).2.2) := rfl

theorem pass1Parts_kept (ps : List GPart) : ∀ st : NState,
    (∀ p ∈ (pass1Parts st ps).2.2, ∀ fc, p.functionCall = some fc → fc.id.isSome) ∧
    orderedResp st.callIds (pass1Parts st ps).2.2 = true ∧
    seenAfterParts st.callIds (pass1Parts st ps).2.2 = (pass1Parts st ps).1.callIds := by
  induction ps with
  | nil =>
    intro st
    exact ⟨by simp [pass1Parts], by simp [pass1Parts, orderedResp],
      by simp [pass1Parts, seenAfterParts]⟩
  | cons p ps ih =>
    intro st
    rw [pass1Parts_cons]
    cases hfc : p.functionCall with
    | some fc =>
      cases hid : fc.id with
      | some x =>
        rw [pass1Part_call_some st p fc x hfc hid]
        obtain ⟨ih1, ih2, ih3⟩ := ih { st with callIds := insert x st.callIds }
        refine ⟨?_, ?_, ?_⟩
        · intro q hq fc' hq'
          rcases List.mem_cons.mp hq with rfl | hq2
          · rw [hfc] at hq'
            cases hq'
            simp [hid]
          · exact ih1 q hq2 fc' hq'
        · simp only [orderedResp, hfc, hid]
          exact ih2
        · simp only [seenAfterParts, hfc, hid]
          exact ih3
      | none =>
        rw [pass1Part_call_none st p fc hfc hid]
        obtain ⟨ih1, ih2, ih3⟩ :=
          ih { st with callIds := insert (genId st.ctr) st.callIds, ctr := st.ctr + 1 }
        refine ⟨?_, ?_, ?_⟩
        · intro q hq fc' hq'
          rcases List.mem_cons.mp hq with rfl | hq2
          · simp only at hq'
            cases hq'
            simp
          · exact ih1 q hq2 fc' hq'
        · simp only [orderedResp]
          exact ih2
        · simp only [seenAfterParts]
          exact ih3
    | none =>
      cases hfr : p.functionResponse with
      | some fr =>
        cases hidr : fr.id with
        | some x =>
          by_cases hxe : x = ""
          · subst hxe
            rw [pass1Part_resp_skip st p fr hfc hfr (Or.inr hidr)]
            obtain ⟨ih1, ih2, ih3⟩ := ih st
            refine ⟨?_, ?_, ?_⟩
            · intro q hq fc' hq'
              rcases List.mem_cons.mp hq with rfl | hq2
              · rw [hfc] at hq'; cases hq'
              · exact ih1 q hq2 fc' hq'
            · simp only [orderedResp, hfc, hfr, hidr]
              simp [ih2]
            · simp only [seenAfterParts, hfc, hfr]
              exact ih3
          · by_cases hmem : x ∈ st.callIds
            · rw [pass1Part_resp_resolve st p fr x hfc hfr hidr hxe hmem]
              obtain ⟨ih1, ih2, ih3⟩ := ih { st with resolved := insert x st.resolved }
              refine ⟨?_, ?_, ?_⟩
              · intro q hq fc' hq'
                rcases List.mem_cons.mp hq with rfl | hq2
                · rw [hfc] at hq'; cases hq'
                · exact ih1 q hq2 fc' hq'
              · simp only [orderedResp, hfc, hfr, hidr]
                simp [ih2, hmem]
              · simp only [seenAfterParts, hfc, hfr]
                exact ih3
            · rw [pass1Part_resp_drop st p fr x hfc hfr hidr hxe hmem]
              exact ih st
        | none =>
          rw [pass1Part_resp_skip st p fr hfc hfr (Or.inl hidr)]
          obtain ⟨ih1, ih2, ih3⟩ := ih st
          refine ⟨?_, ?_, ?_⟩
          · intro q hq fc' hq'
            rcases List.mem_cons.mp hq with rfl | hq2
            · rw [hfc] at hq'; cases hq'
            · exact ih1 q hq2 fc' hq'
          · simp only [orderedResp, hfc, hfr, hidr]
            exact ih2
          · simp only [seenAfterParts, hfc, hfr]
            exact ih3
      | none =>
        rw [pass1Part_plain st p hfc hfr]
        obtain ⟨ih1, ih2, ih3⟩ := ih st
        refine ⟨?_, ?_, ?_⟩
        · intro q hq fc' hq'
          rcases List.mem_cons.mp hq with rfl | hq2
          · rw [hfc] at hq'; cases hq'
          · exact ih1 q hq2 fc' hq'
        · simp only [orderedResp, hfc, hfr]
          exact ih2
        · simp only [seenAfterParts, hfc, hfr]
          exact ih3

theorem pass1Parts_resolved (ps : List GPart) : ∀ st : NState,
    st.callIds ⊆ (pass1Parts st ps).1.callIds ∧
    st.resolved ⊆ (pass1Parts st ps).1.resolved ∧
    (st.resolved ⊆ st.callIds → (pass1Parts st ps).1.resolved ⊆ (pass1Parts st ps).1.callIds) ∧
    (∀ x, x ∈ (pass1Parts st ps).1.resolved →
      x ∈ st.resolved ∨ (x ≠ "" ∧ ∃ p ∈ (pass1Parts st ps).2.2, isRespPartWithId p x)) ∧
    (∀ p ∈ (pass1Parts st ps).2.2, p.functionCall = none →
      ∀ fr, p.functionResponse = some fr → ∀ x, fr.id = some x → x ≠ "" →
        x ∈ (pass1Parts st ps).1.resolved) := by
  induction ps with
  | nil =>
    intro st
    refine ⟨by simp [pass1Parts], by simp [pass1Parts], fun h => by simpa [pass1Parts] using h,
      fun x hx => Or.inl (by simpa [pass1Parts] using hx), fun p hp => by simp [pass1Parts] at hp⟩
  | cons p ps ih =>
    intro st
    rw [pass1Parts_cons]
    cases hfc : p.functionCall with
    | some fc =>
      cases hid : fc.id with
      | some x =>
        rw [pass1Part_call_some st p fc x hfc hid]
        obtain ⟨ih1, ih2, ih3, ih4, ih5⟩ := ih { st with callIds := insert x st.callIds }
        refine ⟨?_, ih2, ?_, ?_, ?_⟩
        · exact (Finset.subset_insert x st.callIds).trans ih1
        · intro hsub
          exact ih3 (hsub.trans (Finset.subset_insert x st.callIds))
        · intro y hy
          rcases ih4 y hy with h | ⟨hne, q, hq, hqx⟩
          · exact Or.inl h
          · exact Or.inr ⟨hne, q, List.mem_cons_of_mem _ hq, hqx⟩
        · intro q hq hqc fr hqr y hy hyne
          rcases List.mem_cons.mp hq with rfl | hq2
          · rw [hfc] at hqc; cases hqc
          · exact ih5 q hq2 hqc fr hqr y hy hyne
      | none =>
        rw [pass1Part_call_none st p fc hfc hid]
        obtain ⟨ih1, ih2, ih3, ih4, ih5⟩ :=
          ih { st with callIds := insert (genId st.ctr) st.callIds, ctr := st.ctr + 1 }
        refine ⟨?_, ih2, ?_, ?_, ?_⟩
        · exact (Finset.subset_insert _ st.callIds).trans ih1
        · intro hsub
          exact ih3 (hsub.trans (Finset.subset_insert _ st.callIds))
        · intro y hy
          rcases ih4 y hy with h | ⟨hne, q, hq, hqx⟩
          · exact Or.inl h
          · exact Or.inr ⟨hne, q, List.mem_cons_of_mem _ hq, hqx⟩
        · intro q hq hqc fr hqr y hy hyne
          rcases List.mem_cons.mp hq with rfl | hq2
          · simp only at hqc; cases hqc
          · exact ih5 q hq2 hqc fr hqr y hy hyne
    | none =>
      cases hfr : p.functionResponse with
      | some fr =>
        cases hidr : fr.id with
        | some x =>
          by_cases hxe : x = ""
          · subst hxe
            rw [pass1Part_resp_skip st p fr hfc hfr (Or.inr hidr)]
            obtain ⟨ih1, ih2, ih3, ih4, ih5⟩ := ih st
            refine ⟨ih1, ih2, ih3, ?_, ?_⟩
            · intro y hy
              rcases ih4 y hy with h | ⟨hne, q, hq, hqx⟩
              · exact Or.inl h
              · exact Or.inr ⟨hne, q, List.mem_cons_of_mem _ hq, hqx⟩
            · intro q hq hqc fr' hqr y hy hyne
              rcases List.mem_cons.mp hq with rfl | hq2
              · rw [hfr] at hqr
                cases hqr
                rw [hidr] at hy
                cases hy
                exact absurd rfl hyne
              · exact ih5 q hq2 hqc fr' hqr y hy hyne
          · by_cases hmem : x ∈ st.callIds
            · rw [pass1Part_resp_resolve st p fr x hfc hfr hidr hxe hmem]
              obtain ⟨ih1, ih2, ih3, ih4, ih5⟩ := ih { st with resolved := insert x st.resolved }
              refine ⟨ih1, ?_, ?_, ?_, ?_⟩
              · exact (Finset.subset_insert x st.resolved).trans ih2
              · intro hsub
                apply ih3
                intro y hy
                rcases Finset.mem_insert.mp hy with rfl | hy2
                · exact hmem
                · exact hsub hy2
              · intro y hy
                rcases ih4 y hy with h | ⟨hne, q, hq, hqx⟩
                · rcases Finset.mem_insert.mp h with rfl | hy2
                  · refine Or.inr ⟨hxe, p, List.mem_cons_self _ _, ?_⟩
                    simp [isRespPartWithId, hfc, hfr, hidr]
                  · exact Or.inl hy2
                · exact Or.inr ⟨hne, q, List.mem_cons_of_mem _ hq, hqx⟩
              · intro q hq hqc fr' hqr y hy hyne
                rcases List.mem_cons.mp hq with rfl | hq2
                · rw [hfr] at hqr
                  cases hqr
                  rw [hidr] at hy
                  cases hy
                  exact ih2 (Finset.mem_insert_self _ _)
                · exact ih5 q hq2 hqc fr' hqr y hy hyne
            · rw [pass1Part_resp_drop st p fr x hfc hfr hidr hxe hmem]
              exact ih st
        | none =>
          rw [pass1Part_resp_skip st p fr hfc hfr (Or.inl hidr)]
          obtain ⟨ih1, ih2, ih3, ih4, ih5⟩ := ih st
          refine ⟨ih1, ih2, ih3, ?_, ?_⟩
          · intro y hy
            rcases ih4 y hy with h | ⟨hne, q, hq, hqx⟩
            · exact Or.inl h
            · exact Or.inr ⟨hne, q, List.mem_cons_of_mem _ hq, hqx⟩
          · intro q hq hqc fr' hqr y hy hyne
            rcases List.mem_cons.mp hq with rfl | hq2
            · rw [hfr] at hqr
              cases hqr
              rw [hidr] at hy
              cases hy
            · exact ih5 q hq2 hqc fr' hqr y hy hyne
      | none =>
        rw [pass1Part_plain st p hfc hfr]
        obtain ⟨ih1, ih2, ih3, ih4, ih5⟩ := ih st
        refine ⟨ih1, ih2, ih3, ?_, ?_⟩
        · intro y hy
          rcases ih4 y hy with h | ⟨hne, q, hq, hqx⟩
          · exact Or.inl h
          · exact Or.inr ⟨hne, q, List.mem_cons_of_mem _ hq, hqx⟩
        · intro q hq hqc fr' hqr y hy hyne
          rcases List.mem_cons.mp hq with rfl | hq2
          · rw [hfr] at hqr; cases hqr
          · exact ih5 q hq2 hqc fr' hqr y hy hyne

theorem pass1Contents_cons (st : NState) (c : Content) (cs : List Content) :
    pass1Contents st (c :: cs) =
      ((pass1Contents (pass1Parts st c.parts).1 cs).1,
       { c with parts := (pass1Parts st c.parts).2.1 } ::
         (pass1Contents (pass1Parts st c.parts).1 cs).2.1,
       if (pass1Parts st c.parts).2.2.isEmpty then
         (pass1Contents (pass1Parts st c.parts).1 cs).2.2
       else
         { c with parts := (pass1Parts st c.parts).2.2 } ::
           (pass1Contents (pass1Parts st c.parts).1 cs).2.2) := rfl

theorem flatParts_pass1Contents_cons (st : NState) (c : Content) (cs : List Content) :
    flatParts (pass1Contents st (c :: cs)).2.2 =
      (pass1Parts st c.parts).2.2 ++
        flatParts (pass1Contents (pass1Parts st c.parts).1 cs).2.2 := by
  rw [pass1Contents_cons]
  by_cases h : (pass1Parts st c.parts).2.2.isEmpty
  · simp [h, List.isEmpty_iff.mp h]
  · simp only [h, Bool.false_eq_true, if_false, flatParts_cons]

theorem pass1Contents_kept (cs : List Content) : ∀ st : NState,
    (∀ p ∈ flatParts (pass1Contents st cs).2.2, ∀ fc, p.functionCall = some fc → fc.id.isSome) ∧
    orderedResp st.callIds (flatParts (pass1Contents st cs).2.2) = true ∧
    seenAfterParts st.callIds (flatParts (pass1Contents st cs).2.2) =
      (pass1Contents st cs).1.callIds ∧
    partsNonempty (pass1Contents st cs).2.2 := by
  induction cs with
  | nil =>
    intro st
    refine ⟨by simp [pass1Contents, flatParts], by simp [pass1Contents, flatParts, orderedResp],
      by simp [pass1Contents, flatParts, seenAfterParts], ?_⟩
    intro c hc
    simp [pass1Contents] at hc
  | cons c cs ih =>
    intro st
    obtain ⟨k1, k2, k3⟩ := pass1Parts_kept c.parts st
    obtain ⟨c1, c2, c3, c4⟩ := ih (pass1Parts st c.parts).1
    have hflat := flatParts_pass1Contents_cons st c cs
    refine ⟨?_, ?_, ?_, ?_⟩
    · rw [hflat]
      intro p hp fc hfc
      rcases List.mem_append.mp hp with h | h
      · exact k1 p h fc hfc
      · exact c1 p h fc hfc
    · rw [hflat, orderedResp_append, k2, k3]
      simpa using c2
    · rw [hflat, seenAfterParts_append, k3]
      exact c3
    · rw [pass1Contents_cons]
      by_cases h : (pass1Parts st c.parts).2.2.isEmpty
      · simpa only [h, if_true] using c4
      · simp only [h, Bool.false_eq_true, if_false]
        intro d hd
        rcases List.mem_cons.mp hd with rfl | hd2
        · exact fun heq => h (List.isEmpty_iff.mpr (by simpa using heq))
        · exact c4 d hd2

theorem pass1Contents_resolved (cs : List Content) : ∀ st : NState,
    st.callIds ⊆ (pass1Contents st cs).1.callIds ∧
    st.resolved ⊆ (pass1Contents st cs).1.resolved ∧
    (st.resolved ⊆ st.callIds →
      (pass1Contents st cs).1.resolved ⊆ (pass1Contents st cs).1.callIds) ∧
    (∀ x, x ∈ (pass1Contents st cs).1.resolved →
      x ∈ st.resolved ∨
        (x ≠ "" ∧ ∃ p ∈ flatParts (pass1Contents st cs).2.2, isRespPartWithId p x)) ∧
    (∀ p ∈ flatParts (pass1Contents st cs).2.2, p.functionCall = none →
      ∀ fr, p.functionResponse = some fr → ∀ x, fr.id = some x → x ≠ "" →
        x ∈ (pass1Contents st cs).1.resolved) := by
  induction cs with
  | nil =>
    intro st
    refine ⟨by simp [pass1Contents], by simp [pass1Contents],
      fun h => by simpa [pass1Contents] using h,
      fun x hx => Or.inl (by simpa [pass1Contents] using hx),
      fun p hp => by simp [pass1Contents, flatParts] at hp⟩
  | cons c cs ih =>
    intro st
    obtain ⟨p1, p2, p3, p4, p5⟩ := pass1Parts_resolved c.parts st
    obtain ⟨c1, c2, c3, c4, c5⟩ := ih (pass1Parts st c.parts).1
    have hflat := flatParts_pass1Contents_cons st c cs
    have hstate : (pass1Contents st (c :: cs)).1 =
        (pass1Contents (pass1Parts st c.parts).1 cs).1 := rfl
    refine ⟨?_, ?_, ?_, ?_, ?_⟩
    · rw [hstate]; exact p1.trans c1
    · rw [hstate]; exact p2.trans c2
    · rw [hstate]; intro hsub; exact c3 (p3 hsub)
    · rw [hstate]
      intro x hx
      rcases c4 x hx with h | ⟨hne, q, hq, hqx⟩
      · rcases p4 x h with h2 | ⟨hne2, q2, hq2, hq2x⟩
        · exact Or.inl h2
        · refine Or.inr ⟨hne2, q2, ?_, hq2x⟩
          rw [hflat]
          exact List.mem_append_left _ hq2
      · refine Or.inr ⟨hne, q, ?_, hqx⟩
        rw [hflat]
        exact List.mem_append_right _ hq
    · rw [hstate]
      intro p hp hpc fr hpr x hx hxne
      rw [hflat] at hp
      rcases List.mem_append.mp hp with h | h
      · exact c2 (p5 p h hpc fr hpr x hx hxne)
      · exact c5 p h hpc fr hpr x hx hxne

theorem pass2_cons (u : Finset String) (c : Content) (cs : List Content) :
    pass2 u (c :: cs) =
      if (c.parts.filter fun p => !pass2Drop u p).isEmpty then pass2 u cs
      else { c with parts := c.parts.filter fun p => !pass2Drop u p } :: pass2 u cs := by
  simp only [pass2, List.filterMap_cons]
  by_cases h : (c.parts.filter fun p => !pass2Drop u p).isEmpty
  · simp only [h, if_true]
  · simp only [h, Bool.false_eq_true, if_false]

theorem flatParts_pass2 (u : Finset String) (cs : List Content) :
    flatParts (pass2 u cs) = (flatParts cs).filter fun p => !pass2Drop u p := by
  induction cs with
  | nil => rfl
  | cons c cs ih =>
    rw [pass2_cons]
    by_cases h : (c.parts.filter fun p => !pass2Drop u p).isEmpty
    · rw [if_pos h, flatParts_cons, List.filter_append, List.isEmpty_iff.mp h,
        List.nil_append, ih]
    · rw [if_neg h, flatParts_cons, flatParts_cons, List.filter_append, ih]

theorem pass2_nonempty (u : Finset String) (cs : List Content) :
    partsNonempty (pass2 u cs) := by
  intro c hc
  simp only [pass2, List.mem_filterMap] at hc
  obtain ⟨d, _, hd⟩ := hc
  by_cases h : (d.parts.filter fun p => !pass2Drop u p).isEmpty
  · simp [h] at hd
  · simp only [h, Bool.false_eq_true, if_false, Option.some.injEq] at hd
    subst hd
    exact fun heq => h (List.isEmpty_iff.mpr (by simpa using heq))

theorem orderedResp_filter (u : Finset String) : ∀ (ps : List GPart) (S1 S2 : Finset String),
    S2 ⊆ S1 → (∀ x ∈ S1, x ∉ u → x ∈ S2) →
    (∀ p ∈ ps, p.functionCall = none → ∀ fr, p.functionResponse = some fr →
      ∀ x, fr.id = some x → x ≠ "" → x ∉ u) →
    orderedResp S1 ps = true →
    orderedResp S2 (ps.filter fun p => !pass2Drop u p) = true := by
  intro ps
  induction ps with
  | nil => intro S1 S2 _ _ _ _; simp [orderedResp]
  | cons p ps ih =>
    intro S1 S2 hsub hinv hresp hord
    simp only [orderedResp] at hord
    simp only [List.filter_cons]
    cases hfc : p.functionCall with
    | some fc =>
      simp only [hfc] at hord
      cases hid : fc.id with
      | some x =>
        simp only [hid] at hord
        by_cases hdrop : x ≠ "" ∧ x ∈ u
        · have hd : (!pass2Drop u p) = false := by
            simp [pass2Drop, hfc, hid, hdrop.2, hdrop.1]
          simp only [hd, Bool.false_eq_true, if_false]
          apply ih (insert x S1) S2 (hsub.trans (Finset.subset_insert _ _))
          · intro y hy hyu
            rcases Finset.mem_insert.mp hy with rfl | hy2
            · exact absurd hdrop.2 hyu
            · exact hinv y hy2 hyu
          · exact fun q hq => hresp q (List.mem_cons_of_mem _ hq)
          · exact hord
        · have hd : (!pass2Drop u p) = true := by
            simp only [pass2Drop, hfc, hid, Bool.not_eq_true']
            by_cases hxe : x = ""
            · simp [hxe]
            · have hxu : x ∉ u := fun hm => hdrop ⟨hxe, hm⟩
              simp [hxe, hxu]
          simp only [hd, if_true, orderedResp, hfc, hid]
          apply ih (insert x S1) (insert x S2) (Finset.insert_subset_insert _ hsub)
          · intro y hy hyu
            rcases Finset.mem_insert.mp hy with rfl | hy2
            · exact Finset.mem_insert_self _ _
            · exact Finset.mem_insert_of_mem (hinv y hy2 hyu)
          · exact fun q hq => hresp q (List.mem_cons_of_mem _ hq)
          · exact hord
      | none =>
        simp only [hid] at hord
        have hd : (!pass2Drop u p) = true := by simp [pass2Drop, hfc, hid]
        simp only [hd, if_true, orderedResp, hfc, hid]
        exact ih S1 S2 hsub hinv (fun q hq => hresp q (List.mem_cons_of_mem _ hq)) hord
    | none =>
      have hd : (!pass2Drop u p) = true := by simp [pass2Drop, hfc]
      simp only [hd, if_true, orderedResp, hfc]
      simp only [hfc] at hord
      cases hfr : p.functionResponse with
      | some fr =>
        simp only [hfr] at hord
        cases hid : fr.id with
        | some x =>
          simp only [hid] at hord
          have h1 := ((Bool.and_eq_true _ _).mp hord).1
          have h2 := ((Bool.and_eq_true _ _).mp hord).2
          simp only [hfr, hid]
          refine (Bool.and_eq_true _ _).mpr ⟨?_, ?_⟩
          · rcases (Bool.or_eq_true _ _).mp h1 with h | h
            · simp [of_decide_eq_true h]
            · have hxS1 : x ∈ S1 := of_decide_eq_true h
              by_cases hxe : x = ""
              · simp [hxe]
              · have hxu : x ∉ u :=
                  hresp p (List.mem_cons_self _ _) hfc fr hfr x hid hxe
                simp [hinv x hxS1 hxu]
          · exact ih S1 S2 hsub hinv (fun q hq => hresp q (List.mem_cons_of_mem _ hq)) h2
        | none =>
          simp only [hid] at hord
          simp only [hfr, hid]
          exact ih S1 S2 hsub hinv (fun q hq => hresp q (List.mem_cons_of_mem _ hq)) hord
      | none =>
        simp only [hfr] at hord
        simp only [hfr]
        exact ih S1 S2 hsub hinv (fun q hq => hresp q (List.mem_cons_of_mem _ hq)) hord

theorem respsMatched_of_ordered (cs : List Content)
    (hord : orderedResp ∅ (flatParts cs) = true) : respsMatched cs := by
  intro p hp hfc fr hfr x hx hne
  rcases orderedResp_resp_witness (flatParts cs) ∅ p fr x hord hp hfc hfr hx hne with h | hw
  · exact absurd h (Finset.not_mem_empty x)
  · exact hw

theorem normalize_sound (cs : List Content) :
    partsNonempty (normalizeToolHistory cs) ∧
    (∀ p ∈ flatParts (normalizeToolHistory cs), ∀ fc, p.functionCall = some fc → fc.id.isSome) ∧
    orderedResp ∅ (flatParts (normalizeToolHistory cs)) = true ∧
    callsMatched (normalizeToolHistory cs) ∧
    respsMatched (normalizeToolHistory cs) := by
  obtain ⟨k1, k2, k3, k4⟩ := pass1Contents_kept cs ⟨∅, ∅, 0⟩
  obtain ⟨c1, c2, c3, c4, c5⟩ := pass1Contents_resolved cs ⟨∅, ∅, 0⟩
  have hsubRC : (pass1Contents ⟨∅, ∅, 0⟩ cs).1.resolved ⊆
      (pass1Contents ⟨∅, ∅, 0⟩ cs).1.callIds := c3 (by simp)
  have hout : normalizeToolHistory cs =
      if (pass1Contents ⟨∅, ∅, 0⟩ cs).1.callIds.card =
          (pass1Contents ⟨∅, ∅, 0⟩ cs).1.resolved.card then
        (pass1Contents ⟨∅, ∅, 0⟩ cs).2.2
      else
        pass2 ((pass1Contents ⟨∅, ∅, 0⟩ cs).1.callIds \ (pass1Contents ⟨∅, ∅, 0⟩ cs).1.resolved)
          (pass1Contents ⟨∅, ∅, 0⟩ cs).2.2 := by
    simp only [normalizeToolHistory, normalizeRun, apply_ite Prod.fst]
  by_cases hcard : (pass1Contents ⟨∅, ∅, 0⟩ cs).1.callIds.card =
      (pass1Contents ⟨∅, ∅, 0⟩ cs).1.resolved.card
  · rw [hout, if_pos hcard]
    have hseteq : (pass1Contents ⟨∅, ∅, 0⟩ cs).1.resolved =
        (pass1Contents ⟨∅, ∅, 0⟩ cs).1.callIds :=
      Finset.eq_of_subset_of_card_le hsubRC hcard.le
    have hordn : orderedResp ∅ (flatParts (pass1Contents ⟨∅, ∅, 0⟩ cs).2.2) = true := k2
    refine ⟨k4, k1, hordn, ?_, respsMatched_of_ordered _ hordn⟩
    intro p hp fc hfc x hx hne
    have hmemC : x ∈ (pass1Contents ⟨∅, ∅, 0⟩ cs).1.callIds := by
      rw [← k3]
      exact (mem_seenAfterParts x _ _).mpr
        (Or.inr ⟨p, hp, by simp [isCallPartWithId, hfc, hx]⟩)
    rw [← hseteq] at hmemC
    rcases c4 x hmemC with h | ⟨_, q, hq, hqx⟩
    · exact absurd h (Finset.not_mem_empty x)
    · exact ⟨q, hq, hqx⟩
  · rw [hout, if_neg hcard]
    have hrespU : ∀ p ∈ flatParts (pass1Contents ⟨∅, ∅, 0⟩ cs).2.2, p.functionCall = none →
        ∀ fr, p.functionResponse = some fr → ∀ x, fr.id = some x → x ≠ "" →
          x ∉ (pass1Contents ⟨∅, ∅, 0⟩ cs).1.callIds \
            (pass1Contents ⟨∅, ∅, 0⟩ cs).1.resolved := by
      intro p hp hfc fr hfr x hx hne hmem
      exact (Finset.mem_sdiff.mp hmem).2 (c5 p hp hfc fr hfr x hx hne)
    have hordo : orderedResp ∅ (flatParts (pass2
        ((pass1Contents ⟨∅, ∅, 0⟩ cs).1.callIds \ (pass1Contents ⟨∅, ∅, 0⟩ cs).1.resolved)
        (pass1Contents ⟨∅, ∅, 0⟩ cs).2.2)) = true := by
      rw [flatParts_pass2]
      exact orderedResp_filter _ _ ∅ ∅ (Finset.Subset.refl _)
        (fun x hx _ => hx) hrespU k2
    refine ⟨pass2_nonempty _ _, ?_, hordo, ?_, respsMatched_of_ordered _ hordo⟩
    · intro p hp fc hfc
      rw [flatParts_pass2] at hp
      exact k1 p (List.mem_filter.mp hp).1 fc hfc
    · intro p hp fc hfc x hx hne
      rw [flatParts_pass2] at hp
      obtain ⟨hpn, hpk⟩ := List.mem_filter.mp hp
      have hxnu : x ∉ (pass1Contents ⟨∅, ∅, 0⟩ cs).1.callIds \
          (pass1Contents ⟨∅, ∅, 0⟩ cs).1.resolved := by
        intro hmem
        have : pass2Drop ((pass1Contents ⟨∅, ∅, 0⟩ cs).1.callIds \
            (pass1Contents ⟨∅, ∅, 0⟩ cs).1.resolved) p = true := by
          simp [pass2Drop, hfc, hx, hne, hmem]
        simp [this] at hpk
      have hmemC : x ∈ (pass1Contents ⟨∅, ∅, 0⟩ cs).1.callIds := by
        rw [← k3]
        exact (mem_seenAfterParts x _ _).mpr
          (Or.inr ⟨p, hpn, by simp [isCallPartWithId, hfc, hx]⟩)
      have hmemR : x ∈ (pass1Contents ⟨∅, ∅, 0⟩ cs).1.resolved := by
        by_contra hnr
        exact hxnu (Finset.mem_sdiff.mpr ⟨hmemC, hnr⟩)
      rcases c4 x hmemR with h | ⟨_, q, hq, hqx⟩
      · exact absurd h (Finset.not_mem_empty x)
      · refine ⟨q, ?_, hqx⟩
        rw [flatParts_pass2]
        refine List.mem_filter.mpr ⟨hq, ?_⟩
        have hqfc : q.functionCall = none := by
          simp only [isRespPartWithId, Bool.and_eq_true] at hqx
          simpa [Option.isNone_iff_eq_none] using hqx.1
        simp [pass2Drop, hqfc]

theorem pass1Parts_mut (ps : List GPart) : ∀ st : NState,
    (∀ p ∈ ps, ∀ fc, p.functionCall = some fc → fc.id.isSome) →
    (pass1Parts st ps).2.1 = ps := by
  induction ps with
  | nil => intro st _; rfl
  | cons p ps ih =>
    intro st hid
    rw [pass1Parts_cons]
    have htail : ∀ q ∈ ps, ∀ fc, q.functionCall = some fc → fc.id.isSome :=
      fun q hq => hid q (List.mem_cons_of_mem _ hq)
    cases hfc : p.functionCall with
    | some fc =>
      rcases Option.isSome_iff_exists.mp (hid p (List.mem_cons_self _ _) fc hfc) with ⟨x, hx⟩
      rw [pass1Part_call_some st p fc x hfc hx]
      simp [ih _ htail]
    | none =>
      cases hfr : p.functionResponse with
      | some fr =>
        cases hidr : fr.id with
        | some x =>
          by_cases hxe : x = ""
          · subst hxe
            rw [pass1Part_resp_skip st p fr hfc hfr (Or.inr hidr)]
            simp [ih _ htail]
          · by_cases hmem : x ∈ st.callIds
            · rw [pass1Part_resp_resolve st p fr x hfc hfr hidr hxe hmem]
              simp [ih _ htail]
            · rw [pass1Part_resp_drop st p fr x hfc hfr hidr hxe hmem]
              simp [ih _ htail]
        | none =>
          rw [pass1Part_resp_skip st p fr hfc hfr (Or.inl hidr)]
          simp [ih _ htail]
      | none =>
        rw [pass1Part_plain st p hfc hfr]
        simp [ih _ htail]

theorem pass1Contents_mut (cs : List Content) : ∀ st : NState,
    (∀ p ∈ flatParts cs, ∀ fc, p.functionCall = some fc → fc.id.isSome) →
    (pass1Contents st cs).2.1 = cs := by
  induction cs with
  | nil => intro st _; rfl
  | cons c cs ih =>
    intro st hid
    rw [flatParts_cons] at hid
    rw [pass1Contents_cons]
    simp only
    rw [pass1Parts_mut c.parts st (fun p hp => hid p (List.mem_append_left _ hp)),
      ih _ (fun p hp => hid p (List.mem_append_right _ hp))]

theorem normalizeInputAfter_eq (cs : List Content) :
    normalizeInputAfter cs = (pass1Contents ⟨∅, ∅, 0⟩ cs).2.1 := by
  simp only [normalizeInputAfter, normalizeRun, apply_ite Prod.snd, ite_self]

/-- Claim C3 (corrected): the History Reconciler does mutate the
caller's conversation — a `tool_call` block lacking an id has a
generated id assigned in place (see the counterexample); but whenever
every `tool_call` block already carries an id (empty-string ids
included), the caller's structure is left value-identical. -/
theorem c3_reconciler_mutation (cs : List Content)
    (hid : ∀ p ∈ flatParts cs, ∀ fc, p.functionCall = some fc → fc.id.isSome) :
    normalizeInputAfter cs = cs := by
  rw [normalizeInputAfter_eq]
  exact pass1Contents_mut cs ⟨∅, ∅, 0⟩ hid

/-- Witness for `c3_reconciler_mutation` at a concrete conversation. -/
theorem c3_reconciler_mutation_witness : normalizeInputAfter convMatched = convMatched :=
  c3_reconciler_mutation convMatched (by decide)

/-- Counterexample to claim C3 as stated: on a conversation with an
id-less `tool_call`, `normalizeToolHistory` writes a generated id into
the caller's block. -/
theorem c3_counterexample :
    normalizeInputAfter convNoIdCall ≠ convNoIdCall ∧
    normalizeInputAfter convNoIdCall =
      [{ role := some "model",
         parts := [{ functionCall := some { id := some "uuid-0", name := some "f" } }] }] := by
  constructor
  · decide
  · decide

/-- Claim C1 (corrected): (a) when every turn is non-empty, every
`tool_call` carries an id, every `tool_result` with a non-empty call id
references a `tool_call` seen earlier, and every `tool_call` with a
non-empty id has a matching `tool_result`, the reconciler returns the
conversation content-identically; (b) for every conversation, the
output has only non-empty turns, every remaining `tool_call` with a
non-empty id has a matching `tool_result` in the output, and every
remaining `tool_result` with a non-empty call id references a
`tool_call` present in the output.  (As stated the claim fails on
dangling results / empty-turn inputs and on empty-string call ids; see
the counterexample.) -/
theorem c1_history_reconciler :
    (∀ cs : List Content, partsNonempty cs →
      (∀ p ∈ flatParts cs, ∀ fc, p.functionCall = some fc → fc.id.isSome) →
      orderedResp ∅ (flatParts cs) = true →
      callsMatched cs →
      normalizeToolHistory cs = cs) ∧
    (∀ cs : List Content,
      partsNonempty (normalizeToolHistory cs) ∧
      callsMatched (normalizeToolHistory cs) ∧
      respsMatched (normalizeToolHistory cs)) :=
  ⟨fun cs hne hid hord hm => normalize_id cs hne hid hord hm,
   fun cs =>
     ⟨(normalize_sound cs).1, (normalize_sound cs).2.2.2.1, (normalize_sound cs).2.2.2.2⟩⟩

/-- Witness for `c1_history_reconciler` at a concrete matched
conversation. -/
theorem c1_history_reconciler_witness :
    normalizeToolHistory convMatched = convMatched ∧
    callsMatched (normalizeToolHistory convMatched) :=
  ⟨c1_history_reconciler.1 convMatched (by decide) (by decide) (by decide) (by decide),
   (c1_history_reconciler.2 convMatched).2.1⟩

/-- Counterexample to claim C1 as stated: (a) a conversation whose only
block is a dangling `tool_result` has every `tool_call` (vacuously)
matched, yet the output is not content-identical — the block and its
turn are dropped; (b) a conversation with one unmatched `tool_call`
carrying the empty string as id keeps that call in the output even
though no `tool_result` matches it. -/
theorem c1_counterexample :
    (normalizeToolHistory cexDanglingResult = [] ∧ cexDanglingResult ≠ []) ∧
    (normalizeToolHistory cexEmptyIdCall = cexEmptyIdCall ∧
      (flatParts (normalizeToolHistory cexEmptyIdCall)).any
        (fun p => p.functionCall.isSome) = true ∧
      (flatParts (normalizeToolHistory cexEmptyIdCall)).all
        (fun p => p.functionResponse.isNone) = true) := by
  refine ⟨⟨by decide, by decide⟩, by decide, by decide, by decide⟩

/-- Claim C6 (confirmed): the History Reconciler is idempotent. -/
theorem c6_reconciler_idempotent (cs : List Content) :
    normalizeToolHistory (normalizeToolHistory cs) = normalizeToolHistory cs := by
  obtain ⟨hne, hid, hord, hmatch, _⟩ := normalize_sound cs
  exact normalize_id _ hne hid hord hmatch

theorem pass1Parts_count (pred : GPart → Bool)
    (hcall : ∀ p fc, p.functionCall = some fc → pred p = false)
    (hdrop : ∀ p fr x, p.functionCall = none → p.functionResponse = some fr →
      fr.id = some x → x ≠ "" → pred p = false)
    (ps : List GPart) : ∀ st : NState,
    ((pass1Parts st ps).2.2).countP pred = ps.countP pred := by
  induction ps with
  | nil => intro st; rfl
  | cons p ps ih =>
    intro st
    rw [pass1Parts_cons]
    cases hfc : p.functionCall with
    | some fc =>
      cases hid : fc.id with
      | some x =>
        rw [pass1Part_call_some st p fc x hfc hid]
        simp only [List.countP_cons, ih]
      | none =>
        rw [pass1Part_call_none st p fc hfc hid]
        simp only [List.countP_cons, ih]
        rw [hcall p fc hfc,
          hcall { p with functionCall := some { fc with id := some (genId st.ctr) } }
            { fc with id := some (genId st.ctr) } rfl]
    | none =>
      cases hfr : p.functionResponse with
      | some fr =>
        cases hidr : fr.id with
        | some x =>
          by_cases hxe : x = ""
          · subst hxe
            rw [pass1Part_resp_skip st p fr hfc hfr (Or.inr hidr)]
            simp only [List.countP_cons, ih]
          · by_cases hmem : x ∈ st.callIds
            · rw [pass1Part_resp_resolve st p fr x hfc hfr hidr hxe hmem]
              simp only [List.countP_cons, ih]
            · rw [pass1Part_resp_drop st p fr x hfc hfr hidr hxe hmem]
              simp only [List.countP_cons, ih]
              rw [hdrop p fr x hfc hfr hidr hxe]
              simp
        | none =>
          rw [pass1Part_resp_skip st p fr hfc hfr (Or.inl hidr)]
          simp only [List.countP_cons, ih]
      | none =>
        rw [pass1Part_plain st p hfc hfr]
        simp only [List.countP_cons, ih]

theorem pass1Contents_count (pred : GPart → Bool)
    (hcall : ∀ p fc, p.functionCall = some fc → pred p = false)
    (hdrop : ∀ p fr x, p.functionCall = none → p.functionResponse = some fr →
      fr.id = some x → x ≠ "" → pred p = false)
    (cs : List Content) : ∀ st : NState,
    (flatParts (pass1Contents st cs).2.2).countP pred = (flatParts cs).countP pred := by
  induction cs with
  | nil => intro st; rfl
  | cons c cs ih =>
    intro st
    rw [flatParts_pass1Contents_cons, flatParts_cons, List.countP_append, List.countP_append,
      pass1Parts_count pred hcall hdrop c.parts st, ih]

theorem pass2_count (pred : GPart → Bool)
    (hcall : ∀ p fc, p.functionCall = some fc → pred p = false)
    (u : Finset String) (cs : List Content) :
    (flatParts (pass2 u cs)).countP pred = (flatParts cs).countP pred := by
  rw [flatParts_pass2]
  induction flatParts cs with
  | nil => rfl
  | cons p ps ih =>
    rw [List.filter_cons, List.countP_cons]
    by_cases h : (!pass2Drop u p) = true
    · rw [if_pos h, List.countP_cons, ih]
    · have hfalse : pred p = false := by
        have hdrop : pass2Drop u p = true := by
          rcases Bool.eq_false_or_eq_true (pass2Drop u p) with h2 | h2
          · exact h2
          · exact absurd (by simp [h2]) h
        unfold pass2Drop at hdrop
        cases hfc : p.functionCall with
        | some fc => exact hcall p fc hfc
        | none => rw [hfc] at hdrop; cases hdrop
      rw [if_neg h, ih, hfalse]
      simp

/-- Claim C10 (confirmed): both filtering passes keep every
`tool_result` block carrying no call id — the count of such blocks is
preserved by the History Reconciler. -/
theorem c10_no_id_results_kept (cs : List Content) :
    countNoIdResults (normalizeToolHistory cs) = countNoIdResults cs := by
  have hcall : ∀ (p : GPart) fc, p.functionCall = some fc →
      (p.functionCall.isNone &&
        (match p.functionResponse with
         | some fr => fr.id.isNone
         | none => false)) = false := by
    intro p fc hfc
    simp [hfc]
  have hdrop : ∀ (p : GPart) fr x, p.functionCall = none → p.functionResponse = some fr →
      fr.id = some x → x ≠ "" →
      (p.functionCall.isNone &&
        (match p.functionResponse with
         | some fr => fr.id.isNone
         | none => false)) = false := by
    intro p fr x hfc hfr hid _
    simp [hfc, hfr, hid]
  have hout : normalizeToolHistory cs =
      if (pass1Contents ⟨∅, ∅, 0⟩ cs).1.callIds.card =
          (pass1Contents ⟨∅, ∅, 0⟩ cs).1.resolved.card then
        (pass1Contents ⟨∅, ∅, 0⟩ cs).2.2
      else
        pass2 ((pass1Contents ⟨∅, ∅, 0⟩ cs).1.callIds \ (pass1Contents ⟨∅, ∅, 0⟩ cs).1.resolved)
          (pass1Contents ⟨∅, ∅, 0⟩ cs).2.2 := by
    simp only [normalizeToolHistory, normalizeRun, apply_ite Prod.fst]
  unfold countNoIdResults
  rw [hout]
  by_cases hcard : (pass1Contents ⟨∅, ∅, 0⟩ cs).1.callIds.card =
      (pass1Contents ⟨∅, ∅, 0⟩ cs).1.resolved.card
  · rw [if_pos hcard, pass1Contents_count _ hcall hdrop cs ⟨∅, ∅, 0⟩]
  · rw [if_neg hcard, pass2_count _ hcall _ _, pass1Contents_count _ hcall hdrop cs ⟨∅, ∅, 0⟩]

/-- Claim C8 (corrected): the OpenAI-side `mapFinishReason` follows the
claimed table exactly, but the Ollama backend is not symmetric — its
`DONE_REASON_TO_FINISH` table knows only `stop` and `length`, and every
other or missing `done_reason` (including `content_filter` and
`tool_calls`) falls back to `Stop`. -/
theorem c8_finish_reason_tables :
    mapFinishReason none = none ∧
    mapFinishReason (some "") = none ∧
    mapFinishReason (some "stop") = some .STOP ∧
    mapFinishReason (some "length") = some .MAX_TOKENS ∧
    mapFinishReason (some "content_filter") = some .SAFETY ∧
    mapFinishReason (some "tool_calls") = none ∧
    (∀ s : String, s ≠ "" → s ≠ "stop" → s ≠ "length" → s ≠ "content_filter" →
      s ≠ "tool_calls" → mapFinishReason (some s) = some .OTHER) ∧
    Ollama.doneFinish none = .STOP ∧
    Ollama.doneFinish (some "stop") = .STOP ∧
    Ollama.doneFinish (some "length") = .MAX_TOKENS ∧
    (∀ s : String, s ≠ "stop" → s ≠ "length" → Ollama.doneFinish (some s) = .STOP) := by
  refine ⟨rfl, rfl, rfl, rfl, rfl, rfl, ?_, rfl, rfl, rfl, ?_⟩
  · intro s h0 h1 h2 h3 h4
    simp [mapFinishReason, h0, h1, h2, h3, h4]
  · intro s h1 h2
    simp [Ollama.doneFinish, DONE_REASON_TO_FINISH, h1, h2]

/-- Witness for `c8_finish_reason_tables` at concrete non-table
reasons. -/
theorem c8_finish_reason_tables_witness :
    mapFinishReason (some "weird") = some .OTHER ∧
    Ollama.doneFinish (some "weird") = .STOP :=
  ⟨c8_finish_reason_tables.2.2.2.2.2.2.1 "weird" (by decide) (by decide) (by decide)
      (by decide) (by decide),
   c8_finish_reason_tables.2.2.2.2.2.2.2.2.2.2 "weird" (by decide) (by decide)⟩

/-- Counterexample to claim C8 as stated: the mapping is not applied
symmetrically by both backends — on `content_filter` the Ollama
backend produces `Stop`, not `SafetyBlocked` as the OpenAI side
does. -/
theorem c8_counterexample :
    Ollama.doneFinish (some "content_filter") = .STOP ∧
    mapFinishReason (some "content_filter") = some .SAFETY ∧
    FinishReason.STOP ≠ FinishReason.SAFETY := by
  refine ⟨by decide, by decide, by decide⟩

/-- Claim C4 (corrected): every increment carries a model name — the
wire model when non-empty, else the configured fallback / target model
— but not every increment carries a response identifier: the OpenAI
stream mapper copies the wire chunk id verbatim, while the Ollama
mappers (non-streaming and streaming) attach no response id at all. -/
theorem c4_increment_identity :
    (∀ (st : OpenAIStreamParserState) (choice : OpenAIChatCompletionChunkChoice)
        (chunk : OpenAIChatCompletionChunk) (r : GenerateContentResponse)
        (st2 : OpenAIStreamParserState),
      processChoice st choice chunk = (some r, st2) →
        r.responseId = some chunk.id ∧
        r.modelVersion = (if chunk.model = "" then st.fallbackModel else chunk.model) ∧
        (st.fallbackModel ≠ "" → r.modelVersion ≠ "")) ∧
    (∀ (tm : String) (data : OllamaRespData) (n : Nat),
      (Ollama.generateResult tm data n).1.responseId = none ∧
      (Ollama.generateResult tm data n).1.modelVersion = tm) ∧
    (∀ (st : OllamaStreamState) (p : OllamaStreamChunk) (n : Nat)
        (r : GenerateContentResponse) (st2 : OllamaStreamState) (n2 : Nat),
      Ollama.processPayload st p n = (some r, st2, n2) →
        r.responseId = none ∧ r.modelVersion = st2.accumulatedModel) := by
  refine ⟨?_, ?_, ?_⟩
  · intro st choice chunk r st2 h
    simp only [processChoice] at h
    split at h
    · simp at h
    · simp only [Prod.mk.injEq, Option.some.injEq] at h
      obtain ⟨h1, h2⟩ := h
      subst h1
      refine ⟨rfl, rfl, ?_⟩
      intro hfb
      by_cases hm : chunk.model = ""
      · simpa [hm] using hfb
      · simp [hm]
  · intro tm data n
    simp [Ollama.generateResult]
  · intro st p n r st2 n2 h
    simp only [Ollama.processPayload] at h
    split at h
    · simp at h
    · split at h
      · simp at h
      · repeat' split at h
        all_goals try (simp at h; done)
        all_goals
          rw [Prod.ext_iff] at h
          obtain ⟨h1, h2⟩ := h
          rw [Prod.ext_iff] at h2
          obtain ⟨h2a, h2b⟩ := h2
          simp only [Option.some.injEq] at h1
          subst h1
          subst h2a
          exact ⟨rfl, rfl⟩

/-- Witness for `c4_increment_identity` at a concrete chunk whose wire
model is empty. -/
theorem c4_increment_identity_witness :
    (c4resp.responseId = some c4chunk.id ∧
      c4resp.modelVersion = (if c4chunk.model = "" then c4st.fallbackModel else c4chunk.model) ∧
      (c4st.fallbackModel ≠ "" → c4resp.modelVersion ≠ "")) ∧
    (Ollama.generateResult "llama3" {} 0).1.responseId = none :=
  ⟨c4_increment_identity.1 c4st c4choice c4chunk c4resp c4st2 (by decide),
   (c4_increment_identity.2.1 "llama3" {} 0).1⟩

/-- Counterexample to claim C4 as stated: the Ollama response mapper
produces an increment with no response identifier at all. -/
theorem c4_counterexample :
    (Ollama.generateResult "llama3" {} 0).1.responseId = none ∧
    (Ollama.generateResult "llama3" {} 0).1.modelVersion = "llama3" := by
  refine ⟨by decide, by decide⟩

/-- Claim C5 (corrected): the OpenAI request builder fails (with the
`InvalidRequest` error) exactly when the conversation yields zero
messages; the Ollama builder has no such check and produces a request
body whose message list is empty. -/
theorem c5_empty_conversation :
    (∀ (lm : Option String) (dm : String) (req : GenParams) (stream : Bool)
        (uid : String) (n : Nat),
      (buildChatCompletionRequest lm dm req stream uid n).1 =
        Except.error "Unable to build OpenAI request: no messages provided." ↔
      (buildMessages req n).1 = []) ∧
    (∀ (dm : String) (stream : Bool) (n : Nat),
      (Ollama.buildRequestBody dm emptyReq stream n).1.messages = []) := by
  constructor
  · intro lm dm req stream uid n
    constructor
    · intro h
      by_contra hne
      simp only [buildChatCompletionRequest] at h
      rw [if_neg (by simpa [List.isEmpty_iff] using hne)] at h
      cases h
    · intro h
      simp only [buildChatCompletionRequest]
      rw [if_pos (by simpa [List.isEmpty_iff] using h)]
  · intro dm stream n
    rfl

/-- Witness for `c5_empty_conversation`: on the empty conversation the
OpenAI builder returns the `InvalidRequest` error. -/
theorem c5_empty_conversation_witness :
    (buildChatCompletionRequest none "gpt-4o-mini" emptyReq false "prompt-1" 0).1 =
      Except.error "Unable to build OpenAI request: no messages provided." :=
  (c5_empty_conversation.1 none "gpt-4o-mini" emptyReq false "prompt-1" 0).mpr (by decide)

/-- Counterexample to claim C5 as stated: the Ollama request builder
does not fail on a conversation yielding zero sendable turns — it
returns a complete request body with an empty message list. -/
theorem c5_counterexample :
    (Ollama.buildRequestBody "llama3" emptyReq false 0).1 =
      { model := "llama3", messages := [], stream := false, temperature := none } := by
  decide

/-- Deleting a key from the buffer map removes it. -/
theorem buffersGet_delete (bs : Buffers) (i : Nat) :
    buffersGet (buffersDelete bs i) i = none := by
  induction bs with
  | nil => rfl
  | cons e rest ih =>
    by_cases he : e.1 = i
    · simpa [buffersDelete, List.filter_cons, he] using ih
    · simp only [buffersDelete, buffersGet, List.filter_cons, List.find?_cons,
        decide_eq_false he, Bool.not_false, if_true]
      simpa [buffersDelete, buffersGet] using ih

/-- Claim C2 (corrected): a single accumulator emits at most one call —
`tryBuild` and `finalize` are both guarded by the `emitted` flag, and a
successful `tryBuild` sets it — and the slot's buffer is deleted upon
emission; but the slot index itself is not retired: a later delta for
the same index starts a fresh accumulation and can produce a second
emitted call for that index (see the counterexample). -/
theorem c2_slot_emission :
    (∀ acc : ToolCallAccumulator, acc.emitted = true →
      acc.tryBuild.1 = none ∧ ∀ n, (acc.finalize n).1 = none) ∧
    (∀ acc : ToolCallAccumulator, acc.tryBuild.1.isSome → acc.tryBuild.2.emitted = true) ∧
    (∀ (st : OpenAIStreamParserState) (d : OpenAIToolCallMessage) (c : FunctionCall)
        (st2 : OpenAIStreamParserState),
      captureToolCalls st (some [d]) = ([c], st2) →
        buffersGet st2.toolCallBuffers (d.index.getD 0) = none) := by
  refine ⟨?_, ?_, ?_⟩
  · intro acc h
    refine ⟨?_, ?_⟩
    · simp [ToolCallAccumulator.tryBuild, h]
    · intro n
      simp [ToolCallAccumulator.finalize, h]
  · intro acc h
    by_cases he : acc.emitted = true
    · simp [ToolCallAccumulator.tryBuild, he] at h
    · by_cases hc : (!strTruthy acc.id || !strTruthy acc.name ||
          !jsonOptTruthy acc.parsedArgs) = true
      · simp [ToolCallAccumulator.tryBuild, he, hc] at h
      · simp [ToolCallAccumulator.tryBuild, he, hc]
  · intro st d c st2 h
    simp only [captureToolCalls] at h
    rw [if_neg (by simp)] at h
    simp only [captureLoop] at h
    split at h
    · simp only [captureLoop] at h
      rw [Prod.ext_iff] at h
      obtain ⟨h1, h2⟩ := h
      subst h2
      simpa using buffersGet_delete st.toolCallBuffers (d.index.getD 0)
    · simp only [captureLoop] at h
      rw [Prod.ext_iff] at h
      obtain ⟨h1, _⟩ := h
      simp at h1

/-- Witness for `c2_slot_emission` at a concrete emitted accumulator
and a concrete single-delta capture. -/
theorem c2_slot_emission_witness :
    ((appendAll {} [deltaA]).tryBuild.2.tryBuild.1 = none ∧
      ∀ n, ((appendAll {} [deltaA]).tryBuild.2.finalize n).1 = none) ∧
    buffersGet ((captureToolCalls parserSt0 (some [deltaA])).2.toolCallBuffers) 0 = none := by
  have hemit : (appendAll {} [deltaA]).tryBuild.2.emitted = true :=
    c2_slot_emission.2.1 (appendAll {} [deltaA]) (by decide)
  refine ⟨c2_slot_emission.1 _ hemit, ?_⟩
  exact c2_slot_emission.2.2 parserSt0 deltaA
    { id := some "a", name := some "f", args := some Json.objNil,
      isClientInitiated := some false }
    { toolCallBuffers := [], lastResponseId := none, fallbackModel := "fallback-model" }
    (by decide)

/-- Counterexample to claim C2 as stated: after slot 0 has emitted a
completed call, a later delta referencing index 0 is not ignored — a
second completed call is emitted for the same slot index. -/
theorem c2_counterexample :
    (captureToolCalls parserSt0 (some [deltaA])).1.length = 1 ∧
    (captureToolCalls (captureToolCalls parserSt0 (some [deltaA])).2 (some [deltaB])).1.length
      = 1 ∧
    deltaA.index = some 0 ∧ deltaB.index = some 0 := by
  refine ⟨by decide, by decide, by decide, by decide⟩

theorem append_fields (acc : ToolCallAccumulator) (d : OpenAIToolCallMessage) :
    (acc.append d).emitted = acc.emitted ∧
    (acc.append d).id = (if strTruthy d.id then d.id else acc.id) ∧
    (acc.append d).name =
      (if strTruthy (d.function.bind (·.name)) then d.function.bind (·.name) else acc.name) ∧
    (acc.append d).rawArguments =
      (match d.function.bind (·.arguments) with
       | some a => acc.rawArguments ++ a
       | none => acc.rawArguments) ∧
    (acc.append d).parsedArgs =
      (match d.function.bind (·.arguments) with
       | some a =>
         (match safeJsonParse (some (acc.rawArguments ++ a)) with
          | some v => if v.truthy then some v else acc.parsedArgs
          | none => acc.parsedArgs)
       | none => acc.parsedArgs) := by
  cases harg : d.function.bind (·.arguments) with
  | none =>
    by_cases h1 : strTruthy d.id <;>
      by_cases h2 : strTruthy (d.function.bind (·.name)) <;>
        simp [ToolCallAccumulator.append, harg, h1, h2]
  | some a =>
    cases hp : safeJsonParse (some (acc.rawArguments ++ a)) with
    | none =>
      by_cases h1 : strTruthy d.id <;>
        by_cases h2 : strTruthy (d.function.bind (·.name)) <;>
          simp [ToolCallAccumulator.append, harg, h1, h2, hp]
    | some v =>
      by_cases h1 : strTruthy d.id <;>
        by_cases h2 : strTruthy (d.function.bind (·.name)) <;>
          by_cases h3 : v.truthy <;>
            simp [ToolCallAccumulator.append, harg, h1, h2, h3, hp]

theorem appendAll_fields (ds : List OpenAIToolCallMessage) : ∀ acc : ToolCallAccumulator,
    (appendAll acc ds).emitted = acc.emitted ∧
    (appendAll acc ds).id = deltaHistId acc.id ds ∧
    (appendAll acc ds).name = deltaHistName acc.name ds ∧
    (appendAll acc ds).rawArguments = deltaHistRaw acc.rawArguments ds ∧
    (appendAll acc ds).parsedArgs = deltaHistParsed acc.parsedArgs acc.rawArguments ds := by
  induction ds with
  | nil =>
    intro acc
    exact ⟨rfl, rfl, rfl, rfl, rfl⟩
  | cons d ds ih =>
    intro acc
    obtain ⟨a1, a2, a3, a4, a5⟩ := append_fields acc d
    have hstep : appendAll acc (d :: ds) = appendAll (acc.append d) ds := rfl
    obtain ⟨i1, i2, i3, i4, i5⟩ := ih (acc.append d)
    rw [hstep]
    refine ⟨by rw [i1, a1], ?_, ?_, ?_, ?_⟩
    · rw [i2, a2]
      rfl
    · rw [i3, a3]
      rfl
    · rw [i4, a4]
      cases harg : d.function.bind (·.arguments) <;> simp [deltaHistRaw, harg]
    · rw [i5, a5, a4]
      cases harg : d.function.bind (·.arguments) with
      | none => simp [deltaHistParsed, harg]
      | some a => simp [deltaHistParsed, harg]

theorem deltaHistParsed_full (ds : List OpenAIToolCallMessage) : ∀ (prev : Option Json)
    (r : String),
    (jsonOptTruthy (safeJsonParse (some r)) = true → prev = safeJsonParse (some r)) →
    jsonOptTruthy (safeJsonParse (some (deltaHistRaw r ds))) = true →
    deltaHistParsed prev r ds = safeJsonParse (some (deltaHistRaw r ds)) := by
  induction ds with
  | nil =>
    intro prev r hprev htr
    exact hprev htr
  | cons d ds ih =>
    intro prev r hprev htr
    cases harg : d.function.bind (·.arguments) with
    | none =>
      simp only [deltaHistParsed, deltaHistRaw, harg] at htr ⊢
      exact ih prev r hprev htr
    | some a =>
      simp only [deltaHistParsed, deltaHistRaw, harg] at htr ⊢
      apply ih _ (r ++ a) _ htr
      intro htr2
      cases hp : safeJsonParse (some (r ++ a)) with
      | none => rw [hp] at htr2; exact Bool.noConfusion htr2
      | some v =>
        rw [hp] at htr2
        simp only [jsonOptTruthy] at htr2
        simp [hp, htr2]

theorem deltaHistParsed_truthy (ds : List OpenAIToolCallMessage) : ∀ (prev : Option Json)
    (r : String), (∀ v, prev = some v → v.truthy = true) →
    ∀ v, deltaHistParsed prev r ds = some v → v.truthy = true := by
  induction ds with
  | nil =>
    intro prev r hprev v hv
    exact hprev v hv
  | cons d ds ih =>
    intro prev r hprev v hv
    cases harg : d.function.bind (·.arguments) with
    | none =>
      simp only [deltaHistParsed, harg] at hv
      exact ih prev r hprev v hv
    | some a =>
      simp only [deltaHistParsed, harg] at hv
      refine ih _ (r ++ a) ?_ v hv
      intro w hw
      cases hp : safeJsonParse (some (r ++ a)) with
      | none =>
        rw [hp] at hw
        exact hprev w hw
      | some u =>
        rw [hp] at hw
        dsimp only at hw
        by_cases hu : u.truthy = true
        · rw [if_pos hu] at hw
          exact (Option.some.injEq _ _).mp hw ▸ hu
        · rw [if_neg hu] at hw
          exact hprev w hw

theorem finalize_args_eq (ds : List OpenAIToolCallMessage) :
    (match optNullish (deltaHistParsed none "" ds)
        (safeJsonParse (some (deltaHistRaw "" ds))) with
     | some v =>
       if v = Json.null then
         if deltaHistRaw "" ds = "" then Json.objNil
         else Json.objCons "raw" (.str (deltaHistRaw "" ds)) Json.objNil
       else v
     | none =>
       if deltaHistRaw "" ds = "" then Json.objNil
       else Json.objCons "raw" (.str (deltaHistRaw "" ds)) Json.objNil) =
    finalizeArgsSpec ds := by
  have hnn : ∀ v, deltaHistParsed none "" ds = some v → v ≠ Json.null := by
    intro v hv he
    have ht := deltaHistParsed_truthy ds none ""
      (by intro w hw; exact Option.noConfusion hw) v hv
    rw [he] at ht
    exact Bool.noConfusion ht
  unfold finalizeArgsSpec
  by_cases htr : jsonOptTruthy (safeJsonParse (some (deltaHistRaw "" ds))) = true
  · rw [if_pos htr]
    have hpp : deltaHistParsed none "" ds = safeJsonParse (some (deltaHistRaw "" ds)) := by
      apply deltaHistParsed_full ds none ""
      · intro h
        rw [show safeJsonParse (some "") = none from rfl] at h
        exact absurd h (by simp [jsonOptTruthy])
      · exact htr
    cases hp : safeJsonParse (some (deltaHistRaw "" ds)) with
    | none => rw [hp] at htr; exact absurd htr (by simp [jsonOptTruthy])
    | some v =>
      have hv : v ≠ Json.null := hnn v (by rw [hpp, hp])
      rw [hpp, hp]
      simp [optNullish, hv]
  · rw [if_neg htr]
    cases hdp : deltaHistParsed none "" ds with
    | none => simp [optNullish]
    | some v =>
      have hv : v ≠ Json.null := hnn v hdp
      simp [optNullish, hv]

/-- `finalize` returns `none` exactly for already-emitted accumulators. -/
theorem finalize_none_iff (acc : ToolCallAccumulator) (n : Nat) :
    (acc.finalize n).1 = none ↔ acc.emitted = true := by
  by_cases he : acc.emitted = true
  · simp [ToolCallAccumulator.finalize, he]
  · simp [ToolCallAccumulator.finalize, he]

theorem flushLoop_length (bs : Buffers) : ∀ n : Nat,
    (flushLoop n bs).1.length = (bs.filter fun e => !e.2.emitted).length := by
  induction bs with
  | nil => intro n; rfl
  | cons e rest ih =>
    intro n
    simp only [flushLoop, List.filter_cons]
    by_cases he : e.2.emitted = true
    · have h1 : (e.2.finalize n).1 = none := (finalize_none_iff e.2 n).mpr he
      rw [h1]
      simp only [he, Bool.not_true, Bool.false_eq_true, if_false]
      exact ih _
    · have h1 : (e.2.finalize n).1 ≠ none := fun h => he ((finalize_none_iff e.2 n).mp h)
      cases hc : (e.2.finalize n).1 with
      | none => exact absurd hc h1
      | some c =>
        have hfalse : e.2.emitted = false := by
          cases hb : e.2.emitted
          · rfl
          · exact absurd hb he
        simp only [hfalse, Bool.not_false, if_true, List.length_cons]
        rw [ih _]

/-- Claim C7 (corrected): a slot still buffered at stream end is
finalized and emitted, never dropped: a missing (or empty) id gets a
generated one, a missing name gets `tool_call`, and the emitted
arguments are the parse of the full fragment concatenation when it is a
truthy JSON value, else the last truthy prefix parse, else the falsy
parse of the full concatenation when that parse is not `null` (the
nullish `??` chain skips a parsed JSON `null` exactly as it skips a
failed parse), else a `raw`-wrapper object (empty fragment:
`\x7b\x7d`); and `flushToolCalls` — invoked on both the terminator and
the transport-close paths — emits exactly one call per non-emitted
buffered slot and clears the buffer map. -/
theorem c7_stream_end_finalize :
    (∀ (ds : List OpenAIToolCallMessage) (n : Nat),
      ((appendAll {} ds).finalize n).1 =
        some { id := some (if strTruthy (deltaHistId none ds) then
                             (deltaHistId none ds).getD "" else genId n),
               name := some (if strTruthy (deltaHistName none ds) then
                               (deltaHistName none ds).getD "" else "tool_call"),
               args := some (finalizeArgsSpec ds),
               isClientInitiated := some false }) ∧
    (∀ (st : OpenAIStreamParserState) (n : Nat),
      st.toolCallBuffers ≠ [] →
      (∃ e ∈ st.toolCallBuffers, e.2.emitted = false) →
      ∃ r, (flushToolCalls st n).1 = some r ∧
        (r.functionCalls.getD []).length =
          (st.toolCallBuffers.filter fun e => !e.2.emitted).length ∧
        (flushToolCalls st n).2.1.toolCallBuffers = []) := by
  constructor
  · intro ds n
    obtain ⟨f1, f2, f3, f4, f5⟩ := appendAll_fields ds {}
    have hem : (appendAll {} ds).emitted = false := f1
    simp only [ToolCallAccumulator.finalize, hem, Bool.false_eq_true, if_false, f2, f3, f4, f5]
    rw [show deltaHistParsed ({} : ToolCallAccumulator).parsedArgs
        ({} : ToolCallAccumulator).rawArguments ds = deltaHistParsed none "" ds from rfl,
      show deltaHistRaw ({} : ToolCallAccumulator).rawArguments ds =
        deltaHistRaw "" ds from rfl,
      show deltaHistId ({} : ToolCallAccumulator).id ds = deltaHistId none ds from rfl,
      show deltaHistName ({} : ToolCallAccumulator).name ds = deltaHistName none ds from rfl]
    rw [← finalize_args_eq ds]
    by_cases hid : strTruthy (deltaHistId none ds) = true
    · by_cases hnm : strTruthy (deltaHistName none ds) = true
      · simp [hid, hnm]
      · simp [hid, hnm]
    · by_cases hnm : strTruthy (deltaHistName none ds) = true
      · simp [hid, hnm]
      · simp [hid, hnm]
  · intro st n hne hex
    have hie : st.toolCallBuffers.isEmpty = false := by
      cases hb : st.toolCallBuffers with
      | nil => exact absurd hb hne
      | cons a l => simp [hb]
    have hlen : (flushLoop n st.toolCallBuffers).1.length =
        (st.toolCallBuffers.filter fun e => !e.2.emitted).length :=
      flushLoop_length st.toolCallBuffers n
    have hfne : (st.toolCallBuffers.filter fun e => !e.2.emitted) ≠ [] := by
      obtain ⟨e, he, hem⟩ := hex
      exact List.ne_nil_of_mem (List.mem_filter.mpr ⟨he, by simp [hem]⟩)
    have hcne : (flushLoop n st.toolCallBuffers).1 ≠ [] := by
      intro h
      rw [h] at hlen
      exact hfne (List.eq_nil_of_length_eq_zero hlen.symm)
    have hcie : (flushLoop n st.toolCallBuffers).1.isEmpty = false := by
      cases hb : (flushLoop n st.toolCallBuffers).1 with
      | nil => exact absurd hb hcne
      | cons a l => simp [hb]
    refine ⟨{ modelVersion := st.fallbackModel,
              responseId := st.lastResponseId,
              candidates := [{ content := { role := some "model",
                                            parts := (flushLoop n st.toolCallBuffers).1.map fun call => { functionCall := some call } } }],
              functionCalls := some (flushLoop n st.toolCallBuffers).1 }, ?_, ?_, ?_⟩
    · simp only [flushToolCalls, hie, Bool.false_eq_true, if_false, hcie]
    · simpa using hlen
    · simp only [flushToolCalls, hie, Bool.false_eq_true, if_false, hcie]

/-- Witness: `c7_stream_end_finalize` applied at the fragment list
`c7deltas` with counter `0`, and at the concrete one-slot buffer state
`c7flushState` (non-empty, slot not yet emitted). -/
theorem c7_stream_end_finalize_witness :
    (((appendAll {} c7deltas).finalize 0).1 =
      some { id := some (if strTruthy (deltaHistId none c7deltas) then (deltaHistId none c7deltas).getD "" else genId 0),
             name := some (if strTruthy (deltaHistName none c7deltas) then (deltaHistName none c7deltas).getD "" else "tool_call"),
             args := some (finalizeArgsSpec c7deltas),
             isClientInitiated := some false }) ∧
    (c7flushState.toolCallBuffers ≠ [] ∧
     (∃ e ∈ c7flushState.toolCallBuffers, e.2.emitted = false) ∧
     ∃ r, (flushToolCalls c7flushState 0).1 = some r ∧
       (r.functionCalls.getD []).length =
         (c7flushState.toolCallBuffers.filter fun e => !e.2.emitted).length ∧
       (flushToolCalls c7flushState 0).2.1.toolCallBuffers = []) :=
  ⟨c7_stream_end_finalize.1 c7deltas 0, by decide, by decide,
   c7_stream_end_finalize.2 c7flushState 0 (by decide) (by decide)⟩

/-- Counterexample to C7 as stated, twice over.  At `c7deltas`
(fragments `"0"` then `"x"`): the full concatenation `"0x"` does not
parse, while the prefix `"0"` parsed successfully (to the falsy number
`0`), so the claim's "else the last successfully parsed value" branch
demands `0`; the code never stores a falsy intermediate parse and
emits the raw-text wrapper object instead.  At `c7nullDeltas` (the
single fragment `"null"`): the full concatenation is valid JSON, so the
claim's "the parse of the full fragment concatenation when it is valid
JSON" branch demands `null`; the code's `??` chain skips the parsed
`null` and emits the raw-text wrapper instead. -/
theorem c7_counterexample :
    (deltaHistRaw "" c7deltas = "0x" ∧
     safeJsonParse (some "0x") = none ∧
     safeJsonParse (some "0") = some (Json.num "0") ∧
     ((appendAll {} c7deltas).finalize 0).1 =
       some { id := some (genId 0), name := some "tool_call",
              args := some (Json.objCons "raw" (.str "0x") .objNil),
              isClientInitiated := some false } ∧
     Json.objCons "raw" (.str "0x") .objNil ≠ Json.num "0") ∧
    (deltaHistRaw "" c7nullDeltas = "null" ∧
     safeJsonParse (some "null") = some Json.null ∧
     ((appendAll {} c7nullDeltas).finalize 0).1 =
       some { id := some (genId 0), name := some "tool_call",
              args := some (Json.objCons "raw" (.str "null") .objNil),
              isClientInitiated := some false } ∧
     Json.objCons "raw" (.str "null") .objNil ≠ Json.null) := by
  refine ⟨⟨?_, ?_, ?_, ?_, ?_⟩, ?_, ?_, ?_, ?_⟩ <;> decide

theorem ciStarts_append_self (p r : List Char) : ciStarts p (p ++ r) = true := by
  induction p with
  | nil => simp [ciStarts]
  | cons c ps ih => simp [ciStarts, ih]

theorem ciStarts_head_ne (p c : Char) (ps cs : List Char) (h : ¬ p.toLower = c.toLower) :
    ciStarts (p :: ps) (c :: cs) = false := by
  simp [ciStarts, h]

theorem takeWhile_append_stop {α : Type} (p : α → Bool) (a : List α) (c : α) (r : List α)
    (hc : p c = false) : ((a ++ c :: r).takeWhile p = a.takeWhile p) := by
  induction a with
  | nil => simp [List.takeWhile_cons, hc]
  | cons d a ih =>
    by_cases hd : p d = true
    · simp [List.takeWhile_cons, hd, ih]
    · simp only [Bool.not_eq_true] at hd
      simp [List.takeWhile_cons, hd]

theorem dropWhile_append_stop {α : Type} (p : α → Bool) (a : List α) (c : α) (r : List α)
    (hc : p c = false) : ((a ++ c :: r).dropWhile p = a.dropWhile p ++ c :: r) := by
  induction a with
  | nil => simp [List.dropWhile_cons, hc]
  | cons d a ih =>
    by_cases hd : p d = true
    · simp [List.dropWhile_cons, hd, ih]
    · simp only [Bool.not_eq_true] at hd
      simp [List.dropWhile_cons, hd]

theorem memDropWhile_sub {α : Type} (p : α → Bool) (l : List α) (c : α)
    (h : c ∈ l.dropWhile p) : c ∈ l := by
  induction l with
  | nil => simpa using h
  | cons d t ih =>
    by_cases hd : p d = true
    · simp only [List.dropWhile_cons, hd, if_true] at h
      exact List.mem_cons_of_mem _ (ih h)
    · simp only [Bool.not_eq_true] at hd
      simp only [List.dropWhile_cons, hd] at h
      simpa using h

theorem splitAtTicks_cons (c : Char) (r : List Char) :
    splitAtTicks (c :: r) =
      if ciStarts ticks3 (c :: r) then some ([], (c :: r).drop 3)
      else
        match splitAtTicks r with
        | some (a, b) => some (c :: a, b)
        | none => none := rfl

theorem splitAtCloseTag_cons (c : Char) (r : List Char) :
    splitAtCloseTag (c :: r) =
      if ciStarts xmlCloseTag (c :: r) then some ([], (c :: r).take 12, (c :: r).drop 12)
      else
        match splitAtCloseTag r with
        | some (a, t, b) => some (c :: a, t, b)
        | none => none := rfl

theorem splitAtTicks_spec (a r : List Char) (ha : ∀ c ∈ a, c.toLower ≠ '`') :
    splitAtTicks (a ++ '`' :: '`' :: '`' :: r) = some (a, r) := by
  induction a with
  | nil =>
    have hci : ciStarts ticks3 ('`' :: '`' :: '`' :: r) = true := by
      have h := ciStarts_append_self ticks3 r
      simpa using h
    rw [List.nil_append, splitAtTicks_cons, if_pos hci]
    simp
  | cons c a ih =>
    have hc : ¬ ('`' : Char).toLower = c.toLower := by
      intro he
      exact ha c (List.mem_cons_self c a) (he.symm.trans (by decide))
    have hci : ciStarts ticks3 (c :: (a ++ '`' :: '`' :: '`' :: r)) = false := by
      have h3 : ticks3 = '`' :: "``".toList := by decide
      rw [h3]
      exact ciStarts_head_ne _ _ _ _ hc
    have ih' := ih (fun d hd => ha d (List.mem_cons_of_mem _ hd))
    rw [List.cons_append, splitAtTicks_cons, if_neg (by simp [hci]), ih']

theorem splitAtCloseTag_spec (a r : List Char) (ha : ∀ c ∈ a, c.toLower ≠ '<') :
    splitAtCloseTag (a ++ (xmlCloseTag ++ r)) = some (a, xmlCloseTag, r) := by
  induction a with
  | nil =>
    have hform : xmlCloseTag ++ r = '<' :: ("/tool_call>".toList ++ r) := rfl
    have hci : ciStarts xmlCloseTag ('<' :: ("/tool_call>".toList ++ r)) = true := by
      have h := ciStarts_append_self xmlCloseTag r
      rw [hform] at h
      exact h
    have htake : ('<' :: ("/tool_call>".toList ++ r)).take 12 = xmlCloseTag := by
      rw [← hform]
      exact List.take_left' (by decide)
    have hdrop : ('<' :: ("/tool_call>".toList ++ r)).drop 12 = r := by
      rw [← hform]
      exact List.drop_left' (by decide)
    rw [List.nil_append, hform, splitAtCloseTag_cons, if_pos hci, htake, hdrop]
  | cons c a ih =>
    have hc : ¬ ('<' : Char).toLower = c.toLower := by
      intro he
      exact ha c (List.mem_cons_self c a) (he.symm.trans (by decide))
    have hci : ciStarts xmlCloseTag (c :: (a ++ (xmlCloseTag ++ r))) = false := by
      have h3 : xmlCloseTag = '<' :: "/tool_call>".toList := by decide
      rw [h3]
      exact ciStarts_head_ne _ _ _ _ hc
    have ih' := ih (fun d hd => ha d (List.mem_cons_of_mem _ hd))
    rw [List.cons_append, splitAtCloseTag_cons, if_neg (by simp [hci]), ih']

theorem scanFenced_succ (f n : Nat) (c : Char) (rest : List Char) :
    scanFenced (f + 1) n (c :: rest) =
      if ciStarts fencedTag (c :: rest) then
        let body := (c :: rest).drop 12
        let ws := body.takeWhile jsWS
        let afterWS := body.dropWhile jsWS
        match splitAtTicks afterWS with
        | some (payload, after) =>
          match parseToolCallPayload (some (String.mk payload)) n with
          | (some call, n1) =>
            let r := scanFenced f n1 after
            (r.1, call :: r.2.1, r.2.2)
          | (none, n1) =>
            let r := scanFenced f n1 after
            ((c :: rest).take 12 ++ ws ++ payload ++ ticks3 ++ r.1, r.2.1, r.2.2)
        | none => (c :: rest, [], n)
      else
        let r := scanFenced f n rest
        (c :: r.1, r.2.1, r.2.2) := rfl

theorem scanXml_succ (f n : Nat) (c : Char) (rest : List Char) :
    scanXml (f + 1) n (c :: rest) =
      if ciStarts xmlOpenTag (c :: rest) then
        let body := (c :: rest).drop 10
        let attrs := body.takeWhile (fun ch => !(ch = '>'))
        match body.dropWhile (fun ch => !(ch = '>')) with
        | '>' :: body2 =>
          match splitAtCloseTag body2 with
          | some (payload, tagOrig, after) =>
            match parseToolCallPayload (some (String.mk payload)) n with
            | (some call, n1) =>
              let r := scanXml f n1 after
              (r.1, call :: r.2.1, r.2.2)
            | (none, n1) =>
              let r := scanXml f n1 after
              ((c :: rest).take 10 ++ attrs ++ ('>' :: payload) ++ tagOrig ++ r.1, r.2.1, r.2.2)
          | none => (c :: rest, [], n)
        | _ => (c :: rest, [], n)
      else
        let r := scanXml f n rest
        (c :: r.1, r.2.1, r.2.2) := rfl

theorem scanFenced_passthrough (fuel n : Nat) (s : List Char)
    (hs : ∀ c ∈ s, c.toLower ≠ '`') : scanFenced fuel n s = (s, [], n) := by
  induction fuel generalizing s with
  | zero => rfl
  | succ f ih =>
    cases s with
    | nil => rfl
    | cons c rest =>
      have hc : ¬ ('`' : Char).toLower = c.toLower := by
        intro he
        exact hs c (List.mem_cons_self c rest) (he.symm.trans (by decide))
      have hci : ciStarts fencedTag (c :: rest) = false := by
        have h12 : fencedTag = '`' :: "``tool_call".toList := by decide
        rw [h12]
        exact ciStarts_head_ne _ _ _ _ hc
      rw [scanFenced_succ, if_neg (by simp [hci]),
        ih rest (fun d hd => hs d (List.mem_cons_of_mem _ hd))]

theorem scanXml_passthrough (fuel n : Nat) (s : List Char)
    (hs : ∀ c ∈ s, c.toLower ≠ '<') : scanXml fuel n s = (s, [], n) := by
  induction fuel generalizing s with
  | zero => rfl
  | succ f ih =>
    cases s with
    | nil => rfl
    | cons c rest =>
      have hc : ¬ ('<' : Char).toLower = c.toLower := by
        intro he
        exact hs c (List.mem_cons_self c rest) (he.symm.trans (by decide))
      have hci : ciStarts xmlOpenTag (c :: rest) = false := by
        have h10 : xmlOpenTag = '<' :: "tool_call".toList := by decide
        rw [h10]
        exact ciStarts_head_ne _ _ _ _ hc
      rw [scanXml_succ, if_neg (by simp [hci]),
        ih rest (fun d hd => hs d (List.mem_cons_of_mem _ hd))]

theorem parsePayload_none_eq (p : Option String) (n m : Nat)
    (h : parseToolCallPayload p n = (none, m)) : m = n := by
  cases p with
  | none =>
    simp only [parseToolCallPayload, Prod.mk.injEq] at h
    exact h.2.symm
  | some s =>
    simp only [parseToolCallPayload] at h
    split at h
    · exact (Prod.ext_iff.mp h).2.symm
    · split at h
      · exact (Prod.ext_iff.mp h).2.symm
      · split at h
        · exact (Prod.ext_iff.mp h).2.symm
        · exact Option.noConfusion (Prod.ext_iff.mp h).1

theorem parsePayload_some_inv (p : Option String) (n n1 : Nat) (call : FunctionCall)
    (h : parseToolCallPayload p n = (some call, n1)) :
    call.id = some (genId n) ∧ n1 = n + 1 := by
  cases p with
  | none =>
    simp only [parseToolCallPayload, Prod.mk.injEq] at h
    exact Option.noConfusion h.1
  | some s =>
    simp only [parseToolCallPayload] at h
    split at h
    · exact Option.noConfusion (Prod.ext_iff.mp h).1
    · split at h
      · exact Option.noConfusion (Prod.ext_iff.mp h).1
      · split at h
        · exact Option.noConfusion (Prod.ext_iff.mp h).1
        · obtain ⟨h1, h2⟩ := Prod.ext_iff.mp h
          rw [Option.some.injEq] at h1
          refine ⟨?_, h2.symm⟩
          rw [← h1]

theorem scanFenced_decomp (pre payload post : List Char) (n fuel : Nat)
    (hpre : ∀ c ∈ pre, c.toLower ≠ '`')
    (hpay : ∀ c ∈ payload, c.toLower ≠ '`')
    (hpost : ∀ c ∈ post, c.toLower ≠ '`')
    (hfuel : pre.length < fuel) :
    scanFenced fuel n (pre ++ fencedTag ++ payload ++ ticks3 ++ post) =
      match parseToolCallPayload (some (String.mk (payload.dropWhile jsWS))) n with
      | (some call, n1) => (pre ++ post, [call], n1)
      | (none, _) => (pre ++ fencedTag ++ payload ++ ticks3 ++ post, [], n) := by
  induction pre generalizing fuel with
  | nil =>
    obtain ⟨f, rfl⟩ : ∃ f, fuel = f + 1 := ⟨fuel - 1, by omega⟩
    have h12 : fencedTag = '`' :: "``tool_call".toList := by decide
    have hL : fencedTag ++ payload ++ ticks3 ++ post =
        '`' :: ("``tool_call".toList ++ (payload ++ (ticks3 ++ post))) := by
      rw [List.append_assoc, List.append_assoc, h12, List.cons_append]
    have hci : ciStarts fencedTag
        ('`' :: ("``tool_call".toList ++ (payload ++ (ticks3 ++ post)))) = true := by
      rw [← List.cons_append, ← h12]
      exact ciStarts_append_self fencedTag (payload ++ (ticks3 ++ post))
    have hdrop12 : ('`' :: ("``tool_call".toList ++ (payload ++ (ticks3 ++ post)))).drop 12 =
        payload ++ (ticks3 ++ post) := by
      rw [← List.cons_append, ← h12]
      exact List.drop_left' (by decide)
    have htake12 : ('`' :: ("``tool_call".toList ++ (payload ++ (ticks3 ++ post)))).take 12 =
        fencedTag := by
      rw [← List.cons_append, ← h12]
      exact List.take_left' (by decide)
    have ht3 : ticks3 ++ post = '`' :: '`' :: '`' :: post := rfl
    have htw : (payload ++ (ticks3 ++ post)).takeWhile jsWS = payload.takeWhile jsWS := by
      rw [ht3]
      exact takeWhile_append_stop jsWS payload '`' ('`' :: '`' :: post) (by decide)
    have hdw : (payload ++ (ticks3 ++ post)).dropWhile jsWS =
        payload.dropWhile jsWS ++ '`' :: '`' :: '`' :: post := by
      rw [ht3]
      exact dropWhile_append_stop jsWS payload '`' ('`' :: '`' :: post) (by decide)
    have hst : splitAtTicks (payload.dropWhile jsWS ++ '`' :: '`' :: '`' :: post) =
        some (payload.dropWhile jsWS, post) :=
      splitAtTicks_spec _ _ (fun c hc => hpay c (memDropWhile_sub _ _ _ hc))
    simp only [List.nil_append]
    rw [hL, scanFenced_succ, if_pos hci]
    dsimp only
    rw [hdrop12, htw, hdw, hst]
    dsimp only
    rcases hpp : parseToolCallPayload (some (String.mk (payload.dropWhile jsWS))) n with ⟨o, n1⟩
    cases o with
    | some call =>
      dsimp only
      rw [scanFenced_passthrough f n1 post hpost]
    | none =>
      have hn1 : n1 = n := parsePayload_none_eq _ _ _ hpp
      subst hn1
      dsimp only
      rw [scanFenced_passthrough f n1 post hpost, htake12]
      simp only [List.append_assoc, List.cons_append, List.nil_append]
      rw [← List.append_assoc (payload.takeWhile jsWS) (payload.dropWhile jsWS),
        List.takeWhile_append_dropWhile, h12, List.cons_append]
  | cons c pre ih =>
    obtain ⟨f, rfl⟩ : ∃ f, fuel = f + 1 := ⟨fuel - 1, by omega⟩
    have hc : ¬ ('`' : Char).toLower = c.toLower := by
      intro he
      exact hpre c (List.mem_cons_self c pre) (he.symm.trans (by decide))
    have hcons : (c :: pre) ++ fencedTag ++ payload ++ ticks3 ++ post =
        c :: (pre ++ fencedTag ++ payload ++ ticks3 ++ post) := by
      simp [List.cons_append]
    have hci : ciStarts fencedTag (c :: (pre ++ fencedTag ++ payload ++ ticks3 ++ post)) = false := by
      have h12 : fencedTag = '`' :: "``tool_call".toList := by decide
      rw [h12]
      exact ciStarts_head_ne _ _ _ _ hc
    have hrec := ih f (fun d hd => hpre d (List.mem_cons_of_mem _ hd))
      (Nat.lt_of_succ_lt_succ (by simpa using hfuel))
    rw [hcons, scanFenced_succ, if_neg (by rw [hci]; exact Bool.false_ne_true)]
    dsimp only
    rw [hrec]
    rcases hpp : parseToolCallPayload (some (String.mk (payload.dropWhile jsWS))) n with ⟨o, n1⟩
    cases o with
    | some call => simp [List.cons_append]
    | none => simp [List.cons_append]

theorem scanXml_open (f n : Nat) (tail : List Char) :
    scanXml (f + 1) n ('<' :: ("tool_call>".toList ++ tail)) =
      match splitAtCloseTag tail with
      | some (payload, tagOrig, after) =>
        match parseToolCallPayload (some (String.mk payload)) n with
        | (some call, n1) =>
          let r := scanXml f n1 after
          (r.1, call :: r.2.1, r.2.2)
        | (none, n1) =>
          let r := scanXml f n1 after
          (xmlOpenTag ++ [] ++ ('>' :: payload) ++ tagOrig ++ r.1, r.2.1, r.2.2)
      | none => ('<' :: ("tool_call>".toList ++ tail), [], n) := rfl

theorem scanXml_decomp (pre payload post : List Char) (n fuel : Nat)
    (hpre : ∀ c ∈ pre, c.toLower ≠ '<')
    (hpay : ∀ c ∈ payload, c.toLower ≠ '<')
    (hpost : ∀ c ∈ post, c.toLower ≠ '<')
    (hfuel : pre.length < fuel) :
    scanXml fuel n (pre ++ xmlOpenFull ++ payload ++ xmlCloseTag ++ post) =
      match parseToolCallPayload (some (String.mk payload)) n with
      | (some call, n1) => (pre ++ post, [call], n1)
      | (none, _) => (pre ++ xmlOpenFull ++ payload ++ xmlCloseTag ++ post, [], n) := by
  induction pre generalizing fuel with
  | nil =>
    obtain ⟨f, rfl⟩ : ∃ f, fuel = f + 1 := ⟨fuel - 1, by omega⟩
    have hL : xmlOpenFull ++ payload ++ xmlCloseTag ++ post =
        '<' :: ("tool_call>".toList ++ (payload ++ (xmlCloseTag ++ post))) := by
      rw [List.append_assoc, List.append_assoc,
        show xmlOpenFull = '<' :: "tool_call>".toList from by decide, List.cons_append]
    simp only [List.nil_append]
    rw [hL, scanXml_open, splitAtCloseTag_spec payload post hpay]
    dsimp only
    rcases hpp : parseToolCallPayload (some (String.mk payload)) n with ⟨o, n1⟩
    cases o with
    | some call =>
      dsimp only
      rw [scanXml_passthrough f n1 post hpost]
    | none =>
      have hn1 := parsePayload_none_eq _ _ _ hpp
      subst hn1
      dsimp only
      rw [scanXml_passthrough f n1 post hpost]
      simp only [List.append_nil, List.append_assoc, List.cons_append, List.nil_append]
      rw [show xmlOpenTag = '<' :: "tool_call".toList from by decide, List.cons_append,
        show ("tool_call>".toList : List Char) = "tool_call".toList ++ ['>'] from by decide]
      simp [List.append_assoc]
  | cons c pre ih =>
    obtain ⟨f, rfl⟩ : ∃ f, fuel = f + 1 := ⟨fuel - 1, by omega⟩
    have hc : ¬ ('<' : Char).toLower = c.toLower := by
      intro he
      exact hpre c (List.mem_cons_self c pre) (he.symm.trans (by decide))
    have hcons : (c :: pre) ++ xmlOpenFull ++ payload ++ xmlCloseTag ++ post =
        c :: (pre ++ xmlOpenFull ++ payload ++ xmlCloseTag ++ post) := by
      simp [List.cons_append]
    have hci : ciStarts xmlOpenTag
        (c :: (pre ++ xmlOpenFull ++ payload ++ xmlCloseTag ++ post)) = false := by
      have h10 : xmlOpenTag = '<' :: "tool_call".toList := by decide
      rw [h10]
      exact ciStarts_head_ne _ _ _ _ hc
    have hrec := ih f (fun d hd => hpre d (List.mem_cons_of_mem _ hd))
      (Nat.lt_of_succ_lt_succ (by simpa using hfuel))
    rw [hcons, scanXml_succ, if_neg (by rw [hci]; exact Bool.false_ne_true)]
    dsimp only
    rw [hrec]
    rcases hpp : parseToolCallPayload (some (String.mk payload)) n with ⟨o, n1⟩
    cases o with
    | some call => simp [List.cons_append]
    | none => simp [List.cons_append]

theorem extractToolCalls_of (l t1 t2 : List Char) (n n1 n2 : Nat)
    (calls1 calls2 : List FunctionCall)
    (h1 : scanFenced l.length n l = (t1, calls1, n1))
    (h2 : scanXml t1.length n1 t1 = (t2, calls2, n2)) :
    extractToolCalls (String.mk l) n = (String.mk (jsTrimL t2), calls1 ++ calls2, n2) := by
  dsimp only [extractToolCalls]
  rw [show (String.mk l).toList = l from rfl, h1]
  dsimp only
  rw [h2]

/-- Claim C9 (corrected): over text free of stray backticks and angle
brackets, a fenced ```` ```tool_call ```` block (and likewise the
`<tool_call>` XML variant) whose payload parses to a JSON object with a
name under an accepted alias yields exactly one extracted call with a
freshly generated id, and the fence is removed from the visible text;
a block whose payload does not yield a call is kept verbatim.  (The
unqualified claim is refuted by `c9_counterexample`: the XML pass runs
over the text left by the fenced pass, so a call can still be extracted
from inside a kept, unparseable fenced block.) -/
theorem c9_fence_extraction :
    (∀ (pre payload post : List Char) (n : Nat),
      (∀ c ∈ pre ++ payload ++ post, c.toLower ≠ '`' ∧ c.toLower ≠ '<') →
      (∀ call n1,
        parseToolCallPayload (some (String.mk (payload.dropWhile jsWS))) n = (some call, n1) →
        extractToolCalls (String.mk (pre ++ fencedTag ++ payload ++ ticks3 ++ post)) n =
          (String.mk (jsTrimL (pre ++ post)), [call], n1) ∧
        call.id = some (genId n) ∧ n1 = n + 1) ∧
      (∀ n1,
        parseToolCallPayload (some (String.mk (payload.dropWhile jsWS))) n = (none, n1) →
        extractToolCalls (String.mk (pre ++ fencedTag ++ payload ++ ticks3 ++ post)) n =
          (String.mk (jsTrimL (pre ++ fencedTag ++ payload ++ ticks3 ++ post)), [], n))) ∧
    (∀ (pre payload post : List Char) (n : Nat),
      (∀ c ∈ pre ++ payload ++ post, c.toLower ≠ '`' ∧ c.toLower ≠ '<') →
      (∀ call n1,
        parseToolCallPayload (some (String.mk payload)) n = (some call, n1) →
        extractToolCalls (String.mk (pre ++ xmlOpenFull ++ payload ++ xmlCloseTag ++ post)) n =
          (String.mk (jsTrimL (pre ++ post)), [call], n1) ∧
        call.id = some (genId n) ∧ n1 = n + 1) ∧
      (∀ n1,
        parseToolCallPayload (some (String.mk payload)) n = (none, n1) →
        extractToolCalls (String.mk (pre ++ xmlOpenFull ++ payload ++ xmlCloseTag ++ post)) n =
          (String.mk (jsTrimL (pre ++ xmlOpenFull ++ payload ++ xmlCloseTag ++ post)), [], n))) := by
  constructor
  · intro pre payload post n hch
    have hpreB : ∀ c ∈ pre, c.toLower ≠ '`' := fun c hc => (hch c (by simp [hc])).1
    have hpayB : ∀ c ∈ payload, c.toLower ≠ '`' := fun c hc => (hch c (by simp [hc])).1
    have hpostB : ∀ c ∈ post, c.toLower ≠ '`' := fun c hc => (hch c (by simp [hc])).1
    have hpreL : ∀ c ∈ pre, c.toLower ≠ '<' := fun c hc => (hch c (by simp [hc])).2
    have hpayL : ∀ c ∈ payload, c.toLower ≠ '<' := fun c hc => (hch c (by simp [hc])).2
    have hpostL : ∀ c ∈ post, c.toLower ≠ '<' := fun c hc => (hch c (by simp [hc])).2
    have hlen : pre.length < (pre ++ fencedTag ++ payload ++ ticks3 ++ post).length := by
      have h12 : fencedTag.length = 12 := by decide
      simp only [List.length_append, h12]
      omega
    have hd := scanFenced_decomp pre payload post n
      (pre ++ fencedTag ++ payload ++ ticks3 ++ post).length hpreB hpayB hpostB hlen
    have hLlt : ∀ c ∈ pre ++ fencedTag ++ payload ++ ticks3 ++ post, c.toLower ≠ '<' := by
      intro c hc
      simp only [List.mem_append] at hc
      rcases hc with ((((h | h) | h) | h) | h)
      · exact hpreL c h
      · exact (by decide : ∀ c ∈ fencedTag, c.toLower ≠ '<') c h
      · exact hpayL c h
      · exact (by decide : ∀ c ∈ ticks3, c.toLower ≠ '<') c h
      · exact hpostL c h
    constructor
    · intro call n1 hpp
      have hinv := parsePayload_some_inv _ _ _ _ hpp
      refine ⟨?_, hinv.1, hinv.2⟩
      rw [hpp] at hd
      have h1 : scanFenced (pre ++ fencedTag ++ payload ++ ticks3 ++ post).length n
          (pre ++ fencedTag ++ payload ++ ticks3 ++ post) = (pre ++ post, [call], n1) := hd
      have h2 : scanXml (pre ++ post).length n1 (pre ++ post) = (pre ++ post, [], n1) :=
        scanXml_passthrough _ _ _ (by
          intro c hc
          rcases List.mem_append.mp hc with h | h
          · exact hpreL c h
          · exact hpostL c h)
      have := extractToolCalls_of _ _ _ _ _ _ _ _ h1 h2
      simpa using this
    · intro n1 hpp
      have hn1 := parsePayload_none_eq _ _ _ hpp
      rw [hn1] at hpp
      rw [hpp] at hd
      have h1 : scanFenced (pre ++ fencedTag ++ payload ++ ticks3 ++ post).length n
          (pre ++ fencedTag ++ payload ++ ticks3 ++ post) =
          (pre ++ fencedTag ++ payload ++ ticks3 ++ post, [], n) := hd
      have h2 : scanXml (pre ++ fencedTag ++ payload ++ ticks3 ++ post).length n
          (pre ++ fencedTag ++ payload ++ ticks3 ++ post) =
          (pre ++ fencedTag ++ payload ++ ticks3 ++ post, [], n) :=
        scanXml_passthrough _ _ _ hLlt
      have := extractToolCalls_of _ _ _ _ _ _ _ _ h1 h2
      simpa using this
  · intro pre payload post n hch
    have hpreB : ∀ c ∈ pre, c.toLower ≠ '`' := fun c hc => (hch c (by simp [hc])).1
    have hpayB : ∀ c ∈ payload, c.toLower ≠ '`' := fun c hc => (hch c (by simp [hc])).1
    have hpostB : ∀ c ∈ post, c.toLower ≠ '`' := fun c hc => (hch c (by simp [hc])).1
    have hpreL : ∀ c ∈ pre, c.toLower ≠ '<' := fun c hc => (hch c (by simp [hc])).2
    have hpayL : ∀ c ∈ payload, c.toLower ≠ '<' := fun c hc => (hch c (by simp [hc])).2
    have hpostL : ∀ c ∈ post, c.toLower ≠ '<' := fun c hc => (hch c (by simp [hc])).2
    have hLbt : ∀ c ∈ pre ++ xmlOpenFull ++ payload ++ xmlCloseTag ++ post, c.toLower ≠ '`' := by
      intro c hc
      simp only [List.mem_append] at hc
      rcases hc with ((((h | h) | h) | h) | h)
      · exact hpreB c h
      · exact (by decide : ∀ c ∈ xmlOpenFull, c.toLower ≠ '`') c h
      · exact hpayB c h
      · exact (by decide : ∀ c ∈ xmlCloseTag, c.toLower ≠ '`') c h
      · exact hpostB c h
    have h1 : scanFenced (pre ++ xmlOpenFull ++ payload ++ xmlCloseTag ++ post).length n
        (pre ++ xmlOpenFull ++ payload ++ xmlCloseTag ++ post) =
        (pre ++ xmlOpenFull ++ payload ++ xmlCloseTag ++ post, [], n) :=
      scanFenced_passthrough _ _ _ hLbt
    have hlen : pre.length < (pre ++ xmlOpenFull ++ payload ++ xmlCloseTag ++ post).length := by
      have h11 : xmlOpenFull.length = 11 := by decide
      simp only [List.length_append, h11]
      omega
    have hd := scanXml_decomp pre payload post n
      (pre ++ xmlOpenFull ++ payload ++ xmlCloseTag ++ post).length hpreL hpayL hpostL hlen
    constructor
    · intro call n1 hpp
      have hinv := parsePayload_some_inv _ _ _ _ hpp
      refine ⟨?_, hinv.1, hinv.2⟩
      rw [hpp] at hd
      have h2 : scanXml (pre ++ xmlOpenFull ++ payload ++ xmlCloseTag ++ post).length n
          (pre ++ xmlOpenFull ++ payload ++ xmlCloseTag ++ post) = (pre ++ post, [call], n1) := hd
      have := extractToolCalls_of _ _ _ _ _ _ _ _ h1 h2
      simpa using this
    · intro n1 hpp
      have hn1 := parsePayload_none_eq _ _ _ hpp
      rw [hn1] at hpp
      rw [hpp] at hd
      have h2 : scanXml (pre ++ xmlOpenFull ++ payload ++ xmlCloseTag ++ post).length n
          (pre ++ xmlOpenFull ++ payload ++ xmlCloseTag ++ post) =
          (pre ++ xmlOpenFull ++ payload ++ xmlCloseTag ++ post, [], n) := hd
      have := extractToolCalls_of _ _ _ _ _ _ _ _ h1 h2
      simpa using this

/-- Witness: `c9_fence_extraction` at concrete text around `c9payload`
(fenced success and XML success) and `c9badPayload` (fenced failure). -/
theorem c9_fence_extraction_witness :
    (extractToolCalls
        (String.mk ("pre ".toList ++ fencedTag ++ (" " ++ c9payload).toList ++ ticks3 ++ " post".toList)) 0 =
        (String.mk (jsTrimL ("pre ".toList ++ " post".toList)), [c9call], 1) ∧
      c9call.id = some (genId 0) ∧ 1 = 0 + 1) ∧
    (extractToolCalls
        (String.mk ("pre ".toList ++ fencedTag ++ (" " ++ c9badPayload).toList ++ ticks3 ++ " post".toList)) 0 =
        (String.mk (jsTrimL ("pre ".toList ++ fencedTag ++ (" " ++ c9badPayload).toList ++ ticks3 ++ " post".toList)), [], 0)) ∧
    (extractToolCalls
        (String.mk ("pre ".toList ++ xmlOpenFull ++ c9payload.toList ++ xmlCloseTag ++ " post".toList)) 0 =
        (String.mk (jsTrimL ("pre ".toList ++ " post".toList)), [c9call], 1) ∧
      c9call.id = some (genId 0) ∧ 1 = 0 + 1) :=
  ⟨(c9_fence_extraction.1 "pre ".toList (" " ++ c9payload).toList " post".toList 0 (by decide)).1
      c9call 1 (by decide),
   (c9_fence_extraction.1 "pre ".toList (" " ++ c9badPayload).toList " post".toList 0 (by decide)).2
      0 (by decide),
   (c9_fence_extraction.2 "pre ".toList c9payload.toList " post".toList 0 (by decide)).1
      c9call 1 (by decide)⟩

/-- Counterexample to C9 as stated, at `c9nested`: the fenced block's
payload does not parse as JSON, yet the completed text is modified and a
call is extracted — the XML pass runs over the text the fenced pass left
behind, including kept unparseable fences. -/
theorem c9_counterexample :
    parseToolCallPayload (some "<tool_call>\x7b\"name\":\"f\"\x7d</tool_call> ") 0 = (none, 0) ∧
    extractToolCalls c9nested 0 =
      ("```tool_call  ```",
       [{ id := some "uuid-0", name := some "f", args := some Json.objNil,
          isClientInitiated := some false }], 1) ∧
    ("```tool_call  ```" : String) ≠ jsTrim c9nested := by
  refine ⟨by decide, by decide, by decide⟩
